import Mathlib

/-!
Verification of the chemistry-formula core of `APP_Calculo.py`
(repository `quimica-principiantes`).

The embedding below transcribes the pure computational core of the source
file: the tokenizer (`tokenize`), the recursive-descent formula parser
(`parse_formula` with its inner `parse_unit` closure), the dictionary
helpers (`multiply_counts`, `merge_counts`), the formatter
(`format_formula`), and the stoichiometry routines (`molar_mass`,
`percent_composition`, `empirical_formula_from_pairs`,
`molecular_formula`).

Modelling conventions:
* Python `dict` (insertion ordered, unique keys) is modelled as an
  association list `Counts := List (String × Int)` together with
  operations `dict_get` / `dict_set` / `dict_update` that mirror Python
  semantics (update-in-place for an existing key, append for a new one).
* Python floats are modelled as rationals (`Rat`).
* Fallible Python operations (raising exceptions) return `Except Err _`;
  the distinct runtime exceptions of the source are distinct `Err`
  constructors (`zeroDivisionError` for a `ZeroDivisionError`,
  `minEmptySequence` for the `ValueError` that `min()` raises on an empty
  sequence, `notIntegerMultiple` for the `ValueError` raised in
  `molecular_formula`, etc.).
* The shared mutable cursor of the Python parser is modelled by passing
  the remaining token list through `parse_unit`, together with a fuel
  argument that makes the recursion structural; `parse_formula` supplies
  fuel `tokens.length + 1`, which is always sufficient (every recursive
  call consumes at least one token).
-/

/-- Error kinds for every failure the core can raise.  `noPositiveQuantity`
is the error named by the specification's taxonomy; the source never
raises it (see the empirical-formula theorems).  `outOfFuel` is an
artifact of the fuel-indexed parser and never occurs at the fuel
`parse_formula` supplies. -/
inductive Err : Type where
  | outOfFuel : Err
  | unrecognizedToken : Err
  | unknownElement : Err
  | unclosedGroup : Err
  | extraClosingParen : Err
  | danglingMultiplier : Err
  | zeroDivisionError : Err
  | minEmptySequence : Err
  | notIntegerMultiple : Err
  | noPositiveQuantity : Err
  | missingLibrary : Err
deriving DecidableEq, Repr

/-- Tokens produced by the tokenizer regex `_token_pat`: dot/middot,
opening bracket, closing bracket, digit run (already converted by `int`,
as every consumer of a number token does), element symbol. -/
inductive Token : Type where
  | dot : Token
  | lparen : Token
  | rparen : Token
  | number : Nat → Token
  | elem : String → Token
deriving DecidableEq, Repr

/-- The regex character class `[\.\·]` — the codepoints of '.' and the
middot. -/
def isDotC (c : Char) : Bool := c.toNat = 46 || c.toNat = 183

/-- The regex character class `[\(\[\{]` (any opening bracket, by
codepoint). -/
def isLparenC (c : Char) : Bool := c.toNat = 40 || c.toNat = 91 || c.toNat = 123

/-- The regex character class `[\)\]\}]` (any closing bracket, by
codepoint). -/
def isRparenC (c : Char) : Bool := c.toNat = 41 || c.toNat = 93 || c.toNat = 125

/-- The regex class `\d` (restricted to the ASCII digits the formulas use). -/
def isDigitC (c : Char) : Bool := 48 ≤ c.toNat && c.toNat ≤ 57

/-- The regex class `[A-Z]`. -/
def isUpperC (c : Char) : Bool := 65 ≤ c.toNat && c.toNat ≤ 90

/-- The regex class `[a-z]`. -/
def isLowerC (c : Char) : Bool := 97 ≤ c.toNat && c.toNat ≤ 122

/-- The regex class `\s` (ASCII whitespace). -/
def isSpaceC (c : Char) : Bool :=
  c.toNat = 32 || c.toNat = 9 || c.toNat = 10 || c.toNat = 11 ||
  c.toNat = 12 || c.toNat = 13

/-- Numeric value of a digit character. -/
def digitVal (c : Char) : Nat := c.toNat - 48

/-- `int` applied to a run of digit characters. -/
def digitsToNat (ds : List Char) : Nat :=
  ds.foldl (fun acc c => 10 * acc + digitVal c) 0

/-- The recursive worker of `tokenize`: scan the character list left to
right, longest match first, discarding whitespace, yielding the token
list.  An unmatched character raises (`UnrecognizedToken`).  The fuel
argument makes the recursion structural (each step consumes at least one
character, so fuel `chars.length + 1` is always sufficient). -/
def tokenizeF : Nat → List Char → Except Err (List Token)
  | 0, _ => .error .outOfFuel
  | _ + 1, [] => .ok []
  | f + 1, c :: cs =>
    if isDotC c then (tokenizeF f cs).map (Token.dot :: ·)
    else if isLparenC c then (tokenizeF f cs).map (Token.lparen :: ·)
    else if isRparenC c then (tokenizeF f cs).map (Token.rparen :: ·)
    else if isDigitC c then
      (tokenizeF f (cs.dropWhile isDigitC)).map
        (Token.number (digitsToNat (c :: cs.takeWhile isDigitC)) :: ·)
    else if isUpperC c then
      match cs with
      | c₂ :: cs₂ =>
        if isLowerC c₂ then (tokenizeF f cs₂).map (Token.elem ⟨[c, c₂]⟩ :: ·)
        else (tokenizeF f (c₂ :: cs₂)).map (Token.elem ⟨[c]⟩ :: ·)
      | [] => (tokenizeF f []).map (Token.elem ⟨[c]⟩ :: ·)
    else if isSpaceC c then tokenizeF f (cs.dropWhile isSpaceC)
    else .error .unrecognizedToken

/-- `tokenize(formula)` (as a list, as `parse_formula` consumes it). -/
def tokenize (chars : List Char) : Except Err (List Token) :=
  tokenizeF (chars.length + 1) chars

/-- An atom-count mapping: the model of the Python `dict` built by the
parser (insertion ordered association list with unique keys). -/
abbrev Counts := List (String × Int)

/-- `counts.get(el, 0)` as an `Option`: the entry stored under a key. -/
def dict_get? (d : Counts) (k : String) : Option Int :=
  (d.find? (fun p => p.1 = k)).map (·.2)

/-- Python `counts.get(el, 0)`. -/
def dict_get (d : Counts) (k : String) : Int :=
  (dict_get? d k).getD 0

/-- Python `counts[el] = v`: replace the entry in place when the key is
present, append a new entry otherwise. -/
def dict_set (d : Counts) (k : String) (v : Int) : Counts :=
  if d.any (fun p => p.1 = k) then
    d.map (fun p => if p.1 = k then (k, v) else p)
  else
    d ++ [(k, v)]

/-- `multiply_counts(counts, k)`: `{el: cnt * k for el, cnt in counts.items()}`. -/
def multiply_counts (counts : Counts) (k : Int) : Counts :=
  counts.map (fun p => (p.1, p.2 * k))

/-- `merge_counts(a, b)`: copy `a` and add each entry of `b` into it. -/
def merge_counts (a b : Counts) : Counts :=
  b.foldl (fun out p => dict_set out p.1 (dict_get out p.1 + p.2)) a

/-- Python `a.update(b)`. -/
def dict_update (a b : Counts) : Counts :=
  b.foldl (fun out p => dict_set out p.1 p.2) a

/-- The inner closure `parse_unit` of `parse_formula`: consume tokens
until a closing bracket, a dot, or the end of input.  The running
`counts` dict and the remaining token list model the mutable `counts`
and the shared cursor `i`; the fuel argument only makes the recursion
structural and is never exhausted at the fuel `parse_formula` passes. -/
def parse_unit : Nat → List Token → Counts → Except Err (Counts × List Token)
  | 0, _, _ => .error .outOfFuel
  | _ + 1, [], counts => .ok (counts, [])
  | _ + 1, .rparen :: rest, counts => .ok (counts, .rparen :: rest)
  | f + 1, .dot :: rest, counts =>
    match parse_unit f rest [] with
    | .error e => .error e
    | .ok (right, rest') =>
      .ok (dict_update counts (merge_counts counts right), rest')
  | f + 1, .elem el :: rest, counts =>
    match rest with
    | .number n :: rest₁ =>
      parse_unit f rest₁ (dict_set counts el (dict_get counts el + (n : Int)))
    | _ =>
      parse_unit f rest (dict_set counts el (dict_get counts el + 1))
  | f + 1, .lparen :: rest, counts =>
    match parse_unit f rest [] with
    | .error e => .error e
    | .ok (inner, rest₁) =>
      match rest₁ with
      | .rparen :: rest₂ =>
        match rest₂ with
        | .number n :: rest₃ =>
          parse_unit f rest₃ (merge_counts counts (multiply_counts inner (n : Int)))
        | _ =>
          parse_unit f rest₂ (merge_counts counts (multiply_counts inner 1))
      | _ => .error .unclosedGroup
  | f + 1, .number m :: rest, counts =>
    match rest with
    | .elem el :: rest₁ =>
      match rest₁ with
      | .number c :: rest₂ =>
        parse_unit f rest₂
          (dict_set counts el (dict_get counts el + (m : Int) * (c : Int)))
      | _ =>
        parse_unit f rest₁
          (dict_set counts el (dict_get counts el + (m : Int) * 1))
    | .lparen :: rest₁ =>
      match parse_unit f rest₁ [] with
      | .error e => .error e
      | .ok (inner, rest₂) =>
        match rest₂ with
        | .rparen :: rest₃ =>
          match rest₃ with
          | .number c :: rest₄ =>
            parse_unit f rest₄
              (merge_counts counts (multiply_counts inner ((m : Int) * (c : Int))))
          | _ =>
            parse_unit f rest₃
              (merge_counts counts (multiply_counts inner ((m : Int) * 1)))
        | _ => .error .unclosedGroup
    | _ => .error .danglingMultiplier

/-- `parse_formula(formula)`: tokenize, run `parse_unit` from the start,
and reject a leftover closing bracket. -/
def parse_formula (s : String) : Except Err Counts :=
  match tokenize s.data with
  | .error e => .error e
  | .ok tokens =>
    match parse_unit (tokens.length + 1) tokens [] with
    | .error e => .error e
    | .ok (total, rest) =>
      match rest with
      | .rparen :: _ => .error .extraClosingParen
      | _ => .ok total

/-! ## Element data provider (`get_atomic_weight`) -/

/-- Modelled from the spec: the backing periodic-table reference dataset
(the third-party `periodictable` library, not part of this repository).
Standard atomic weights (g/mol) for the element symbols the claims use,
as rationals. -/
def pt_mass (symbol : String) : Option Rat :=
  match symbol with
  | "H" => some ((100794 : Rat) / 100000)
  | "C" => some ((120107 : Rat) / 10000)
  | "N" => some ((140067 : Rat) / 10000)
  | "O" => some ((159994 : Rat) / 10000)
  | "Na" => some ((2298977 : Rat) / 100000)
  | "P" => some ((30973762 : Rat) / 1000000)
  | "S" => some ((32065 : Rat) / 1000)
  | "Ca" => some ((40078 : Rat) / 1000)
  | "Cu" => some ((63546 : Rat) / 1000)
  | _ => none

/-- `get_atomic_weight(symbol)`: the deuterium special case, then the
reference-table lookup; an unknown symbol raises. -/
def get_atomic_weight (symbol : String) : Except Err Rat :=
  if symbol = "D" then .ok ((201410177812 : Rat) / 100000000000)
  else
    match pt_mass symbol with
    | some m => .ok m
    | none => .error .unknownElement

/-! ## Numeric helpers: Python division and `round` -/

/-- Python division: raises `ZeroDivisionError` on a zero divisor. -/
def pydiv (a b : Rat) : Except Err Rat :=
  if b = 0 then .error .zeroDivisionError else .ok (a / b)

/-- Python `round` (round half to even) on the rational model of a float. -/
def pyRound (x : Rat) : Int :=
  let f := ⌊x⌋
  let r := x - (f : Rat)
  if r < 1 / 2 then f
  else if 1 / 2 < r then f + 1
  else if f % 2 = 0 then f else f + 1

/-! ## Formula formatter (`format_formula`) -/

/-- Digit character for a value `0..9`. -/
def digitChar (d : Nat) : Char :=
  match d with
  | 0 => '0' | 1 => '1' | 2 => '2' | 3 => '3' | 4 => '4'
  | 5 => '5' | 6 => '6' | 7 => '7' | 8 => '8' | 9 => '9'
  | _ => '*'

/-- The recursive worker of `natToDigits` (fuel keeps the recursion
structural; fuel `n + 1` is always sufficient since `n / 10 < n`). -/
def natToDigitsF : Nat → Nat → List Char
  | 0, _ => []
  | f + 1, n =>
    if n < 10 then [digitChar n]
    else natToDigitsF f (n / 10) ++ [digitChar (n % 10)]

/-- Decimal digits of a natural number (Python `str` of a nonnegative int). -/
def natToDigits (n : Nat) : List Char := natToDigitsF (n + 1) n

/-- Decimal rendering of an integer (Python `str`), as characters. -/
def intToChars (n : Int) : List Char :=
  if n < 0 then '-' :: natToDigits (-n).toNat else natToDigits n.toNat

/-- The `order_key` rank: Carbon first, Hydrogen second, the rest after. -/
def fmt_rank (el : String) : Nat :=
  if el = "C" then 0 else if el = "H" then 1 else 2

/-- The ordering `sorted(..., key=order_key)` sorts by: compare the rank
tuples `(rank, symbol)` lexicographically. -/
def fmt_le (a b : String × Int) : Bool :=
  decide (fmt_rank a.1 < fmt_rank b.1) ||
    (decide (fmt_rank a.1 = fmt_rank b.1) && decide (a.1 ≤ b.1))

/-- Insert into a sorted list (the model of Python's stable `sorted`). -/
def insert_sorted (le : α → α → Bool) (x : α) : List α → List α
  | [] => [x]
  | y :: ys => if le x y then x :: y :: ys else y :: insert_sorted le x ys

/-- Sort a list by the boolean order `le` (insertion sort; the claims only
use that the result is a permutation in the given order). -/
def sort_by (le : α → α → Bool) : List α → List α
  | [] => []
  | x :: xs => insert_sorted le x (sort_by le xs)

/-- One entry of the formatter output: `f"{el}{'' if n==1 else n}"`. -/
def entry_chars (p : String × Int) : List Char :=
  p.1.data ++ (if p.2 = 1 then [] else intToChars p.2)

/-- `format_formula(counts)`: sort by the canonical order and concatenate
the per-element renderings. -/
def format_formula (counts : Counts) : String :=
  String.mk (((sort_by fmt_le counts).map entry_chars).flatten)

/-! ## Stoichiometry engine -/

/-- The generator sum `sum(get_atomic_weight(el) * n for el, n in counts.items())`
used by `molar_mass` and `molecular_formula`. -/
def mass_sum : Counts → Except Err Rat
  | [] => .ok 0
  | p :: rest =>
    match get_atomic_weight p.1 with
    | .error e => .error e
    | .ok w =>
      match mass_sum rest with
      | .error e => .error e
      | .ok tail => .ok (w * (p.2 : Rat) + tail)

/-- `molar_mass(formula)`: parse, then sum weight times count. -/
def molar_mass (s : String) : Except Err Rat :=
  match parse_formula s with
  | .error e => .error e
  | .ok counts => mass_sum counts

/-- The dict comprehension of `percent_composition`: each entry divides by
the total molar mass (a Python `ZeroDivisionError` when it is zero and an
entry exists). -/
def comp_loop (total : Rat) : Counts → Except Err (List (String × Rat))
  | [] => .ok []
  | p :: rest =>
    match get_atomic_weight p.1 with
    | .error e => .error e
    | .ok w =>
      match pydiv (100 * w * (p.2 : Rat)) total with
      | .error e => .error e
      | .ok pct =>
        match comp_loop total rest with
        | .error e => .error e
        | .ok tail => .ok ((p.1, pct) :: tail)

/-- `percent_composition(formula)`: the per-element percentages together
with the total molar mass. -/
def percent_composition (s : String) : Except Err (List (String × Rat) × Rat) :=
  match parse_formula s with
  | .error e => .error e
  | .ok counts =>
    match molar_mass s with
    | .error e => .error e
    | .ok total_mm =>
      match comp_loop total_mm counts with
      | .error e => .error e
      | .ok comp => .ok (comp, total_mm)

/-- `molecular_formula(empirical_formula, target_molar_mass)`: parse the
empirical formula, compute its molar mass, divide (a raw
`ZeroDivisionError` when the empirical mass is zero), round the quotient,
reject a non-integer multiple, otherwise scale every count and format. -/
def molecular_formula (emp_text : String) (target_molar_mass : Rat) :
    Except Err String :=
  match parse_formula emp_text with
  | .error e => .error e
  | .ok emp_counts =>
    match mass_sum emp_counts with
    | .error e => .error e
    | .ok emp_mm =>
      match pydiv target_molar_mass emp_mm with
      | .error e => .error e
      | .ok r =>
        let k := pyRound r
        if k ≤ 0 ∨ |r - (k : Rat)| > 3 / 100 then .error .notIntegerMultiple
        else .ok (format_formula (multiply_counts emp_counts k))

/-! ## Empirical formula (`empirical_formula_from_pairs`) -/

/-- The moles loop: `moles.append((sym, grams / mm))` for each pair, where
`grams = val if not base100 else val` (the vestigial grams/percent
branch of the source, transcribed as written). -/
def moles_loop (base100 : Bool) : List (String × Rat) → Except Err (List (String × Rat))
  | [] => .ok []
  | p :: rest =>
    match get_atomic_weight p.1 with
    | .error e => .error e
    | .ok mm =>
      let grams := if !base100 then p.2 else p.2
      match pydiv grams mm with
      | .error e => .error e
      | .ok q =>
        match moles_loop base100 rest with
        | .error e => .error e
        | .ok tail => .ok ((p.1, q) :: tail)

/-- Lines 133–139 of the source: total, the `95 <= total <= 105` flag, and
the moles list. -/
def moles_of (pairs : List (String × Rat)) : Except Err (List (String × Rat)) :=
  let total := (pairs.map (fun p => p.2)).sum
  let base100 : Bool := decide ((95 : Rat) ≤ total) && decide (total ≤ 105)
  moles_loop base100 pairs

/-- `min(v for _, v in moles if v > 0)`: Python `min` raises `ValueError`
on an empty sequence. -/
def min_positive (moles : List (String × Rat)) : Except Err Rat :=
  match (moles.filter (fun p => decide (0 < p.2))).map (fun p => p.2) with
  | [] => .error .minEmptySequence
  | v :: vs => .ok (vs.foldl min v)

/-- `ratios = [(sym, v / minmol) for sym, v in moles]`. -/
def ratios_loop (minmol : Rat) : List (String × Rat) → Except Err (List (String × Rat))
  | [] => .ok []
  | p :: rest =>
    match pydiv p.2 minmol with
    | .error e => .error e
    | .ok r =>
      match ratios_loop minmol rest with
      | .error e => .error e
      | .ok tail => .ok ((p.1, r) :: tail)

/-- The inner loop of a probe scale `k`: scale every ratio by `k`, round,
and reject the scale when a rounded value is zero or too far from the
scaled ratio. -/
def try_scale (tol : Rat) (k : Int) : List (String × Rat) → Option (List (String × Int))
  | [] => some []
  | p :: rest =>
    let x := p.2 * (k : Rat)
    let n := pyRound x
    if n = 0 ∨ |x - (n : Rat)| > tol then none
    else
      match try_scale tol k rest with
      | none => none
      | some tail => some ((p.1, n) :: tail)

/-- Accumulation of an accepted probe's rounded counts
(`counts[sym] = counts.get(sym, 0) + n`). -/
def accumulate_counts (rounded : List (String × Int)) : Counts :=
  rounded.foldl (fun c p => dict_set c p.1 (dict_get c p.1 + p.2)) []

/-- The fallback dict comprehension
`{sym: max(1, int(round(r))) for sym, r in ratios}`. -/
def fallback_counts (rlist : List (String × Rat)) : Counts :=
  rlist.foldl (fun c p => dict_set c p.1 (max 1 (pyRound p.2))) []

/-- The probe loop over the fixed scale sequence: the first accepted scale
is formatted; exhausting the probes formats the fallback counts. -/
def probe_loop (rlist : List (String × Rat)) (tol : Rat) : List Int → String
  | [] => format_formula (fallback_counts rlist)
  | k :: ks =>
    match try_scale tol k rlist with
    | some rounded => format_formula (accumulate_counts rounded)
    | none => probe_loop rlist tol ks

/-- The fixed probe sequence `[1, 2, 3, 4, 5, 6, 8, 10]`. -/
def probe_ks : List Int := [1, 2, 3, 4, 5, 6, 8, 10]

/-- `empirical_formula_from_pairs(pairs, tolerance=0.05)`. -/
def empirical_formula_from_pairs (pairs : List (String × Rat))
    (tolerance : Rat) : Except Err String :=
  match moles_of pairs with
  | .error e => .error e
  | .ok moles =>
    match min_positive moles with
    | .error e => .error e
    | .ok minmol =>
      match ratios_loop minmol moles with
      | .error e => .error e
      | .ok rlist => .ok (probe_loop rlist tolerance probe_ks)

/-- The moles computation as the spec words it: divide each value directly
by its atomic weight, with no aggregate-sum gate (the comparison
definition for the grams/percent-policy claim). -/
def moles_spec : List (String × Rat) → Except Err (List (String × Rat))
  | [] => .ok []
  | p :: rest =>
    match get_atomic_weight p.1 with
    | .error e => .error e
    | .ok mm =>
      match pydiv p.2 mm with
      | .error e => .error e
      | .ok q =>
        match moles_spec rest with
        | .error e => .error e
        | .ok tail => .ok ((p.1, q) :: tail)

/-- The empirical-formula routine as the spec words it: identical to
`empirical_formula_from_pairs` except that the provisional moles are
computed without consulting the aggregate sum. -/
def empirical_formula_spec_path (pairs : List (String × Rat))
    (tolerance : Rat) : Except Err String :=
  match moles_spec pairs with
  | .error e => .error e
  | .ok moles =>
    match min_positive moles with
    | .error e => .error e
    | .ok minmol =>
      match ratios_loop minmol moles with
      | .error e => .error e
      | .ok rlist => .ok (probe_loop rlist tolerance probe_ks)

/-- The shape of every element-symbol string the tokenizer emits: one
uppercase letter optionally followed by one lowercase letter. -/
def validSym (s : String) : Prop :=
  (∃ u, s = ⟨[u]⟩ ∧ isUpperC u = true) ∨
    (∃ u l, s = ⟨[u, l]⟩ ∧ isUpperC u = true ∧ isLowerC l = true)

/-- The tokens of one formatted entry: the element symbol, then its count
unless that count is exactly 1. -/
def entry_tokens (p : String × Int) : List Token :=
  .elem p.1 :: (if p.2 = 1 then [] else [.number p.2.toNat])

/-! # Theorems -/

/-! ## Shared helper lemmas -/

theorem gw_C : get_atomic_weight "C" = .ok ((120107 : Rat) / 10000) := rfl

theorem gw_H : get_atomic_weight "H" = .ok ((100794 : Rat) / 100000) := rfl

theorem gw_O : get_atomic_weight "O" = .ok ((159994 : Rat) / 10000) := rfl

theorem pyRound_zero : pyRound 0 = 0 := by simp [pyRound]

theorem pyRound_intCast (k : Int) : pyRound (k : Rat) = k := by simp [pyRound]

/-- Every entry of the reference table is positive. -/
theorem pt_mass_pos (s : String) (w : Rat) (h : pt_mass s = some w) : 0 < w := by
  unfold pt_mass at h
  split at h
  all_goals first
    | (injection h with h' ; subst h' ; norm_num)
    | simp at h

/-- Every weight the data provider returns is positive. -/
theorem get_atomic_weight_pos (s : String) (w : Rat)
    (h : get_atomic_weight s = .ok w) : 0 < w := by
  rw [get_atomic_weight] at h
  split at h
  · injection h with h'
    subst h'
    norm_num
  · split at h
    · injection h with h'
      exact pt_mass_pos s w (by simp_all)
    · cases h

/-- The vestigial grams/percent branch: both arms of
`val if not base100 else val` are the same value, so the moles loop is
independent of the flag. -/
theorem moles_loop_eq_spec (b : Bool) (pairs : List (String × Rat)) :
    moles_loop b pairs = moles_spec pairs := by
  induction pairs with
  | nil => rfl
  | cons p rest ih =>
    simp only [moles_loop, moles_spec, Bool.not_eq_true', ite_self, ih]

/-- The aggregate sum of the input values never reaches the moles
computation. -/
theorem moles_of_eq_spec (pairs : List (String × Rat)) :
    moles_of pairs = moles_spec pairs := by
  simp only [moles_of, moles_loop_eq_spec]

/-! ## C1 -/

/-- C1: the claim states `parseFormula("CuSO4·5H2O")` = {Cu:1, S:1, O:9,
H:10}, the hydrate coefficient 5 scaling every element of the following
H2O unit.  The code disagrees: the leading `5` multiplies only the
immediately following element `H` (composed with its own suffix `2`),
and the `O` after it counts once, so the parse yields
{Cu:1, S:1, O:5, H:10} — oxygen 5, not 9. -/
theorem claim_C1_code_result :
    parse_formula "CuSO4·5H2O" = .ok [("Cu", 1), ("S", 1), ("O", 5), ("H", 10)] ∧
    dict_get? [("Cu", 1), ("S", 1), ("O", 5), ("H", 10)] "O" = some 5 ∧
    dict_get? [("Cu", 1), ("S", 1), ("O", 5), ("H", 10)] "O" ≠ some 9 :=
  ⟨rfl, rfl, by simp [dict_get?, List.find?]⟩

/-! ## C2 -/

/-- C2 counterexample: the claim states `percentComposition` fails with
`ZeroMolarMass` on the empty formula and never returns a result with
total molar mass 0.  The code has no such guard: on the empty formula it
returns the empty composition together with total molar mass 0. -/
theorem claim_C2_counterexample : percent_composition "" = .ok ([], 0) := rfl

/-- C2 (amended): `percent_composition` performs no zero-mass guard.  For
every formula that parses to the empty AtomCount it returns the empty
composition mapping and total molar mass 0 without raising; no division
is attempted because there are no entries to divide. -/
theorem claim_C2_amended (s : String) (h : parse_formula s = .ok []) :
    percent_composition s = .ok ([], 0) := by
  simp only [percent_composition, molar_mass, h, mass_sum, comp_loop]

theorem claim_C2_witness : percent_composition " " = .ok ([], 0) :=
  claim_C2_amended " " rfl

/-! ## C3 counterexample -/

/-- C3 counterexample: the claim states that no accepted formula produces
a zero-valued key.  The input "H0" is accepted and parses to {H: 0}: the
key "H" is present with count 0. -/
theorem claim_C3_counterexample :
    parse_formula "H0" = .ok [("H", 0)] ∧ dict_get? [("H", 0)] "H" = some 0 :=
  ⟨rfl, rfl⟩

/-! ## C5 -/

/-- C5: a standalone Number token must be immediately followed by an
ElementSymbol or a LeftParen; anything else (including end of input, as
in the input "3") raises `DanglingMultiplier`.  A following element or
group composes the leading multiplier with its own trailing multiplier
by product. -/
theorem claim_C5 :
    (∀ (f m : Nat) (rest : List Token) (counts : Counts),
      (∀ el rest', rest ≠ Token.elem el :: rest') →
      (∀ rest', rest ≠ Token.lparen :: rest') →
      parse_unit (f + 1) (Token.number m :: rest) counts =
        .error .danglingMultiplier) ∧
    (∀ (f m : Nat) (el : String) (c : Nat) (rest₂ : List Token) (counts : Counts),
      parse_unit (f + 1) (Token.number m :: Token.elem el :: Token.number c :: rest₂) counts =
        parse_unit f rest₂
          (dict_set counts el (dict_get counts el + (m : Int) * (c : Int)))) ∧
    (∀ (f m c : Nat) (rest₁ : List Token) (inner : Counts) (rest₄ : List Token)
        (counts : Counts),
      parse_unit f rest₁ [] = .ok (inner, Token.rparen :: Token.number c :: rest₄) →
      parse_unit (f + 1) (Token.number m :: Token.lparen :: rest₁) counts =
        parse_unit f rest₄
          (merge_counts counts (multiply_counts inner ((m : Int) * (c : Int))))) ∧
    parse_formula "3" = .error .danglingMultiplier := by
  refine ⟨?_, ?_, ?_, rfl⟩
  · intro f m rest counts h1 h2
    cases rest with
    | nil => rfl
    | cons t r =>
      cases t with
      | dot => rfl
      | lparen => exact absurd rfl (h2 r)
      | rparen => rfl
      | number n => rfl
      | elem el => exact absurd rfl (h1 el r)
  · intro f m el c rest₂ counts
    rfl
  · intro f m c rest₁ inner rest₄ counts h
    simp only [parse_unit, h]

theorem claim_C5_witness :
    parse_unit 1 [Token.number 3] [] = .error .danglingMultiplier ∧
    parse_unit 4 [Token.number 2, Token.elem "H", Token.number 3] [] =
      parse_unit 3 [] (dict_set [] "H" (dict_get [] "H" + (2 : Int) * (3 : Int))) :=
  ⟨claim_C5.1 0 3 [] [] (fun el r h => by simp at h) (fun r h => by simp at h),
   claim_C5.2.1 3 2 "H" 3 [] []⟩

/-! ## C8 -/

/-- C8: the aggregate sum of the input values is computed but never gates
the computation: `empirical_formula_from_pairs` coincides, on every
input, with the spec-worded routine that divides each value directly by
its atomic weight (grams and percent interpretations take the identical
path). -/
theorem claim_C8 (pairs : List (String × Rat)) (tol : Rat) :
    empirical_formula_from_pairs pairs tol = empirical_formula_spec_path pairs tol := by
  simp only [empirical_formula_from_pairs, empirical_formula_spec_path, moles_of_eq_spec]

theorem claim_C8_witness :
    empirical_formula_from_pairs [("H", 1)] (1 / 20) =
      empirical_formula_spec_path [("H", 1)] (1 / 20) :=
  claim_C8 [("H", 1)] (1 / 20)

/-! ## C9 -/

/-- C9: `molecular_formula` divides by the empirical molar mass without a
zero guard; when the empirical text parses to an empty AtomCount (the
empty string) the mass is 0 and the call fails with the raw
`ZeroDivisionError`, regardless of the target, not with
`NotIntegerMultiple`. -/
theorem claim_C9 :
    (∀ target : Rat, molecular_formula "" target = .error .zeroDivisionError) ∧
    Err.zeroDivisionError ≠ Err.notIntegerMultiple := by
  constructor
  · intro target
    simp [molecular_formula, show parse_formula "" = .ok [] from rfl, mass_sum, pydiv]
  · decide

theorem claim_C9_witness :
    molecular_formula "" ((18016 : Rat) / 100) = .error .zeroDivisionError :=
  claim_C9.1 ((18016 : Rat) / 100)

/-! ## C6 -/

/-- C6: `molecular_formula` computes the quotient of the target by the
empirical molar mass and rounds it to `k`; whenever the empirical
formula parses and has nonzero molar mass, the call fails with
`NotIntegerMultiple` exactly when `k ≤ 0` or the quotient is more than
0.03 from `k`, and otherwise returns the formatted empirical counts all
scaled by `k`; in particular `molecular_formula("CH2O", 180.16)` is
"C6H12O6". -/
theorem claim_C6 :
    (∀ (emp_text : String) (target : Rat) (m : Counts) (mm : Rat),
      parse_formula emp_text = .ok m → mass_sum m = .ok mm → mm ≠ 0 →
      ((molecular_formula emp_text target = .error .notIntegerMultiple ↔
          (pyRound (target / mm) ≤ 0 ∨
            |target / mm - (pyRound (target / mm) : Rat)| > 3 / 100)) ∧
        (¬ (pyRound (target / mm) ≤ 0 ∨
            |target / mm - (pyRound (target / mm) : Rat)| > 3 / 100) →
          molecular_formula emp_text target =
            .ok (format_formula (multiply_counts m (pyRound (target / mm))))))) ∧
    molecular_formula "CH2O" ((18016 : Rat) / 100) = .ok "C6H12O6" := by
  constructor
  · intro emp_text target m mm hp hm hmm
    have hd : pydiv target mm = .ok (target / mm) := by rw [pydiv, if_neg hmm]
    simp only [molecular_formula, hp, hm, hd]
    constructor
    · split
      · next hc => simp [hc]
      · next hc => simp [hc]
    · intro hc
      rw [if_neg hc]
  · have hparse : parse_formula "CH2O" = .ok [("C", 1), ("H", 2), ("O", 1)] := rfl
    have hmass : mass_sum [("C", 1), ("H", 2), ("O", 1)] = .ok ((1501299 : Rat) / 50000) := by
      simp only [mass_sum, gw_C, gw_H, gw_O]
      norm_num
    have hdiv : pydiv ((18016 : Rat) / 100) ((1501299 : Rat) / 50000) =
        .ok ((9008000 : Rat) / 1501299) := by
      rw [pydiv, if_neg (by norm_num)]
      norm_num
    have hround : pyRound ((9008000 : Rat) / 1501299) = 6 := by
      have hf : ⌊(9008000 : Rat) / 1501299⌋ = 6 := by
        rw [Int.floor_eq_iff]
        norm_num
      simp only [pyRound, hf]
      norm_num
    have habs : |(9008000 : Rat) / 1501299 - ((6 : Int) : Rat)| = 206 / 1501299 := by
      rw [abs_of_nonneg (by push_cast ; norm_num)]
      push_cast
      norm_num
    simp only [molecular_formula, hparse, hmass, hdiv, hround]
    rw [if_neg (by rw [habs] ; push_neg ; exact ⟨by norm_num, by norm_num⟩)]
    rfl

theorem claim_C6_witness :
    (molecular_formula "CH2O" ((3002598 : Rat) / 100000) = .error .notIntegerMultiple ↔
      (pyRound (((3002598 : Rat) / 100000) / ((1501299 : Rat) / 50000)) ≤ 0 ∨
        |((3002598 : Rat) / 100000) / ((1501299 : Rat) / 50000) -
          (pyRound (((3002598 : Rat) / 100000) / ((1501299 : Rat) / 50000)) : Rat)| >
            3 / 100)) ∧
    (¬ (pyRound (((3002598 : Rat) / 100000) / ((1501299 : Rat) / 50000)) ≤ 0 ∨
        |((3002598 : Rat) / 100000) / ((1501299 : Rat) / 50000) -
          (pyRound (((3002598 : Rat) / 100000) / ((1501299 : Rat) / 50000)) : Rat)| >
            3 / 100) →
      molecular_formula "CH2O" ((3002598 : Rat) / 100000) =
        .ok (format_formula (multiply_counts [("C", 1), ("H", 2), ("O", 1)]
          (pyRound (((3002598 : Rat) / 100000) / ((1501299 : Rat) / 50000)))))) :=
  claim_C6.1 "CH2O" ((3002598 : Rat) / 100000) [("C", 1), ("H", 2), ("O", 1)]
    ((1501299 : Rat) / 50000) rfl
    (by simp only [mass_sum, gw_C, gw_H, gw_O] ; norm_num)
    (by norm_num)

/-! ## Machinery for the empirical-formula claims (C7, C10) -/

theorem forall₂_mem_left {α β : Type} {R : α → β → Prop} {l₁ : List α} {l₂ : List β}
    (h : List.Forall₂ R l₁ l₂) {a : α} (ha : a ∈ l₁) : ∃ b ∈ l₂, R a b := by
  induction h with
  | nil => simp at ha
  | cons hr _ ih =>
    rcases List.mem_cons.mp ha with rfl | ha'
    · exact ⟨_, List.mem_cons_self .., hr⟩
    · rcases ih ha' with ⟨b, hb, hrb⟩
      exact ⟨b, List.mem_cons_of_mem _ hb, hrb⟩

theorem forall₂_mem_right {α β : Type} {R : α → β → Prop} {l₁ : List α} {l₂ : List β}
    (h : List.Forall₂ R l₁ l₂) {b : β} (hb : b ∈ l₂) : ∃ a ∈ l₁, R a b := by
  induction h with
  | nil => simp at hb
  | cons hr _ ih =>
    rcases List.mem_cons.mp hb with rfl | hb'
    · exact ⟨_, List.mem_cons_self .., hr⟩
    · rcases ih hb' with ⟨a, ha, hra⟩
      exact ⟨a, List.mem_cons_of_mem _ ha, hra⟩

/-- The correspondence between input pairs and the moles list: when every
symbol resolves, the loop succeeds and pairs each (symbol, value) with
(symbol, value / weight). -/
theorem moles_spec_ok (pairs : List (String × Rat))
    (h1 : ∀ p ∈ pairs, ∃ w, get_atomic_weight p.1 = .ok w) :
    ∃ moles, moles_spec pairs = .ok moles ∧
      List.Forall₂ (fun (p q : String × Rat) => q.1 = p.1 ∧
        ∃ w, get_atomic_weight p.1 = .ok w ∧ 0 < w ∧ q.2 = p.2 / w) pairs moles := by
  induction pairs with
  | nil => exact ⟨[], rfl, .nil⟩
  | cons p rest ih =>
    rcases h1 p (List.mem_cons_self ..) with ⟨w, hw⟩
    have hwpos : 0 < w := get_atomic_weight_pos p.1 w hw
    rcases ih (fun q hq => h1 q (List.mem_cons_of_mem _ hq)) with ⟨tail, htail, hf⟩
    refine ⟨(p.1, p.2 / w) :: tail, ?_, .cons ⟨rfl, w, hw, hwpos, rfl⟩ hf⟩
    simp only [moles_spec, hw, pydiv, if_neg (ne_of_gt hwpos), htail]

/-- When no moles entry is positive, the `min` of the filtered sequence
raises Python's empty-sequence `ValueError`. -/
theorem min_positive_error (moles : List (String × Rat))
    (h : ∀ q ∈ moles, ¬ 0 < q.2) :
    min_positive moles = .error .minEmptySequence := by
  have hfil : moles.filter (fun p => decide (0 < p.2)) = [] := by
    rw [List.filter_eq_nil_iff]
    intro q hq
    simp [h q hq]
  simp only [min_positive, hfil, List.map_nil]

/-! ## C7 -/

/-- C7 counterexample: the claim states the all-nonpositive case fails
with a guarded `NoPositiveQuantity`.  The code instead lets Python's
`min()` raise its generic empty-sequence `ValueError` (no
`NoPositiveQuantity` guard exists): on [("H", 0)] the failure is the
unhandled empty-sequence error, a different error kind. -/
theorem claim_C7_counterexample :
    empirical_formula_from_pairs [("H", 0)] (1 / 20) = .error .minEmptySequence ∧
    Err.minEmptySequence ≠ Err.noPositiveQuantity := by
  constructor
  · have hm : moles_of [("H", (0 : Rat))] = .ok [("H", 0)] := by
      rw [moles_of_eq_spec]
      simp only [moles_spec, gw_H, pydiv]
      norm_num
    have hmin : min_positive [("H", (0 : Rat))] = .error .minEmptySequence := by
      simp only [min_positive, List.filter]
      norm_num
    simp only [empirical_formula_from_pairs, hm, hmin]
  · decide

/-- C7 (amended): whenever every pair's value is zero or negative (and
every symbol resolves to a weight), `empirical_formula_from_pairs` fails
— but with the unhandled empty-sequence error of Python's `min()`, not
with a dedicated `NoPositiveQuantity` guard. -/
theorem claim_C7_amended (pairs : List (String × Rat)) (tol : Rat)
    (h1 : ∀ p ∈ pairs, ∃ w, get_atomic_weight p.1 = .ok w)
    (h2 : ∀ p ∈ pairs, p.2 ≤ 0) :
    empirical_formula_from_pairs pairs tol = .error .minEmptySequence := by
  rcases moles_spec_ok pairs h1 with ⟨moles, hmoles, hf⟩
  have hnp : ∀ q ∈ moles, ¬ 0 < q.2 := by
    intro q hq
    rcases forall₂_mem_right hf hq with ⟨p, hp, -, w, hw, hwpos, hq2⟩
    rw [hq2, not_lt]
    exact div_nonpos_of_nonpos_of_nonneg (h2 p hp) (le_of_lt hwpos)
  simp only [empirical_formula_from_pairs, moles_of_eq_spec, hmoles,
    min_positive_error moles hnp]

theorem claim_C7_witness :
    empirical_formula_from_pairs [] (1 / 20) = .error .minEmptySequence :=
  claim_C7_amended [] (1 / 20) (by simp) (by simp)

/-- Python `counts[k'] = v` read back: the written key returns the new
value, every other key is untouched. -/
theorem dict_get?_set (d : Counts) (k' k : String) (v : Int) :
    dict_get? (dict_set d k' v) k = if k' = k then some v else dict_get? d k := by
  rw [dict_set]
  by_cases hany : d.any (fun p => decide (p.1 = k')) = true
  · rw [if_pos hany, dict_get?, List.find?_map]
    have hpred : ((fun q => decide (q.1 = k)) ∘
        (fun p => if p.1 = k' then (k', v) else p)) = fun q => decide (q.1 = k) := by
      funext q
      by_cases hq : q.1 = k'
      · simp only [Function.comp, if_pos hq]
        rw [hq]
      · simp only [Function.comp, if_neg hq]
    rw [hpred]
    cases hF : d.find? (fun q => decide (q.1 = k)) with
    | none =>
      rw [if_neg]
      · simp [dict_get?, hF]
      · intro hk
        subst hk
        rcases List.any_eq_true.mp hany with ⟨q, hq, hqk⟩
        exact absurd hF (by
          intro hnone
          exact (List.find?_eq_none.mp hnone q hq) hqk)
    | some q =>
      have hqk : q.1 = k := by simpa using List.find?_some hF
      by_cases hq' : q.1 = k'
      · rw [if_pos (hq' ▸ hqk)]
        simp [hq']
      · rw [if_neg (fun hk => hq' (by rw [hqk, ← hk]))]
        simp [dict_get?, hF, if_neg hq']
  · rw [if_neg hany, dict_get?, List.find?_append]
    by_cases hk : k' = k
    · subst hk
      have hnone : d.find? (fun q => decide (q.1 = k')) = none :=
        List.find?_eq_none.mpr (fun x hx hpx => hany (List.any_eq_true.mpr ⟨x, hx, hpx⟩))
      simp [hnone, List.find?]
    · have hsingle : ([(k', v)].find? (fun q => decide (q.1 = k))) = none := by
        simp [List.find?, hk]
      rw [hsingle, Option.or_none, if_neg hk]
      rfl

/-- A fold of `dict_set` writes touching only other keys leaves a key's
entry unchanged. -/
theorem dict_get?_foldl_set {α : Type} (key : α → String) (val : Counts → α → Int) :
    ∀ (l : List α) (acc : Counts) (k : String), (∀ p ∈ l, key p ≠ k) →
      dict_get? (l.foldl (fun c p => dict_set c (key p) (val c p)) acc) k =
        dict_get? acc k := by
  intro l
  induction l with
  | nil => intro acc k _ ; rfl
  | cons p rest ih =>
    intro acc k h
    rw [List.foldl_cons, ih _ k (fun q hq => h q (List.mem_cons_of_mem _ hq)),
      dict_get?_set, if_neg (h p (List.mem_cons_self ..))]

/-- The fallback dict comprehension read back at a key that occurs exactly
once among the ratios: the entry is `max 1 (round r)` for that
occurrence's ratio `r`. -/
theorem fallback_counts_get (rlist : List (String × Rat)) (k : String) (r : Rat)
    (hmem : (k, r) ∈ rlist) (hcount : (rlist.map Prod.fst).count k = 1) :
    dict_get? (fallback_counts rlist) k = some (max 1 (pyRound r)) := by
  rw [fallback_counts]
  suffices hgen : ∀ (l : List (String × Rat)) (acc : Counts), (k, r) ∈ l →
      (l.map Prod.fst).count k = 1 →
      dict_get? (l.foldl (fun c p => dict_set c p.1 (max 1 (pyRound p.2))) acc) k =
        some (max 1 (pyRound r)) from hgen rlist [] hmem hcount
  intro l
  induction l with
  | nil => intro acc h _ ; simp at h
  | cons p rest ih =>
    intro acc hm hc
    rw [List.map_cons, List.count_cons] at hc
    by_cases hpk : p.1 = k
    · have hrest0 : (rest.map Prod.fst).count k = 0 := by
        simp only [hpk, beq_self_eq_true, if_pos] at hc
        omega
      have hknotin : ∀ q ∈ rest, q.1 ≠ k := by
        intro q hq hqk
        have : k ∈ rest.map Prod.fst := hqk ▸ List.mem_map_of_mem _ hq
        rw [List.count_eq_zero] at hrest0
        exact hrest0 this
      have hp : p = (k, r) := by
        rcases List.mem_cons.mp hm with h | h
        · exact h.symm
        · exact absurd (List.mem_map_of_mem Prod.fst h) (by
            rw [List.count_eq_zero] at hrest0
            simpa using hrest0)
      subst hp
      rw [List.foldl_cons,
        dict_get?_foldl_set (fun p => p.1) (fun _ p => max 1 (pyRound p.2)) rest _ k hknotin,
        dict_get?_set, if_pos rfl]
    · have hc' : (rest.map Prod.fst).count k = 1 := by
        rw [show (p.1 == k) = false from by simpa using hpk] at hc
        simpa using hc
      have hm' : (k, r) ∈ rest := by
        rcases List.mem_cons.mp hm with h | h
        · exact absurd (by rw [← h]) hpk
        · exact h
      rw [List.foldl_cons, ih _ hm' hc']

/-- The firsts of two `Forall₂`-related lists agree when the relation
forces equal firsts. -/
theorem forall₂_fst_eq {R : (String × Rat) → (String × Rat) → Prop}
    {l₁ l₂ : List (String × Rat)} (h : List.Forall₂ R l₁ l₂)
    (hR : ∀ a b, R a b → b.1 = a.1) : l₂.map Prod.fst = l₁.map Prod.fst := by
  induction h with
  | nil => rfl
  | cons hr _ ih => simp [ih, hR _ _ hr]

/-- A fold of `min` over positives stays positive. -/
theorem foldl_min_pos : ∀ (vs : List Rat) (v : Rat), 0 < v → (∀ x ∈ vs, 0 < x) →
    0 < vs.foldl min v := by
  intro vs
  induction vs with
  | nil => intro v hv _ ; exact hv
  | cons x xs ih =>
    intro v hv hall
    rw [List.foldl_cons]
    exact ih _ (lt_min hv (hall x (List.mem_cons_self ..)))
      (fun y hy => hall y (List.mem_cons_of_mem _ hy))

/-- With at least one positive moles entry, Python's `min` succeeds and
returns a positive minimum. -/
theorem min_positive_ok (moles : List (String × Rat))
    (h : ∃ q ∈ moles, 0 < q.2) :
    ∃ minmol, min_positive moles = .ok minmol ∧ 0 < minmol := by
  have hall : ∀ x ∈ (moles.filter (fun p => decide (0 < p.2))).map (fun p => p.2),
      0 < x := by
    intro x hx
    rcases List.mem_map.mp hx with ⟨q, hq, rfl⟩
    simpa using (List.mem_filter.mp hq).2
  cases hcase : (moles.filter (fun p => decide (0 < p.2))).map (fun p => p.2) with
  | nil =>
    rcases h with ⟨q, hq, hq2⟩
    have : q.2 ∈ (moles.filter (fun p => decide (0 < p.2))).map (fun p => p.2) :=
      List.mem_map_of_mem _ (List.mem_filter.mpr ⟨hq, by simpa using hq2⟩)
    rw [hcase] at this
    simp at this
  | cons v vs =>
    refine ⟨vs.foldl min v, ?_, ?_⟩
    · simp only [min_positive, hcase]
    · have hv : 0 < v := hall v (hcase ▸ List.mem_cons_self ..)
      exact foldl_min_pos vs v hv
        (fun y hy => hall y (hcase ▸ List.mem_cons_of_mem _ hy))

/-- The ratios loop always succeeds for a nonzero minimum, pairing each
moles entry with its ratio. -/
theorem ratios_loop_ok (minmol : Rat) (hne : minmol ≠ 0) :
    ∀ moles : List (String × Rat),
      ∃ rlist, ratios_loop minmol moles = .ok rlist ∧
        List.Forall₂ (fun (q r : String × Rat) =>
          r.1 = q.1 ∧ r.2 = q.2 / minmol) moles rlist := by
  intro moles
  induction moles with
  | nil => exact ⟨[], rfl, .nil⟩
  | cons q rest ih =>
    rcases ih with ⟨tail, htail, hf⟩
    refine ⟨(q.1, q.2 / minmol) :: tail, ?_, .cons ⟨rfl, rfl⟩ hf⟩
    simp only [ratios_loop, pydiv, if_neg hne, htail]

/-- A zero-valued ratio defeats every probe scale: its scaled rounded
value is 0, so the scale is rejected. -/
theorem try_scale_none_of_zero (tol : Rat) (k : Int) (rlist : List (String × Rat))
    (h : ∃ p ∈ rlist, p.2 = 0) : try_scale tol k rlist = none := by
  induction rlist with
  | nil => simp at h
  | cons p rest ih =>
    rcases h with ⟨q, hq, hq0⟩
    rcases List.mem_cons.mp hq with rfl | hmem
    · simp [try_scale, hq0, zero_mul, pyRound_zero]
    · simp only [try_scale]
      split
      · rfl
      · rw [ih ⟨q, hmem, hq0⟩]

/-- When some ratio is 0, the probe loop exhausts every scale and lands in
the fallback. -/
theorem probe_loop_fallback (rlist : List (String × Rat)) (tol : Rat) (ks : List Int)
    (h : ∃ p ∈ rlist, p.2 = 0) :
    probe_loop rlist tol ks = format_formula (fallback_counts rlist) := by
  induction ks with
  | nil => rfl
  | cons k ks ih => simp only [probe_loop, try_scale_none_of_zero tol k rlist h, ih]

/-! ## C10 -/

/-- C10: with at least one positive value (and resolvable symbols),
`empirical_formula_from_pairs` never fails; and when some pair carries
value 0, its ratio is 0, every probe scale is rejected (the scaled
rounded value is 0), the fallback path is taken for all elements, and a
uniquely-occurring zero-valued symbol appears in the fallback counts
with count 1. -/
theorem claim_C10 (pairs : List (String × Rat)) (tol : Rat) (sym : String)
    (h1 : ∀ p ∈ pairs, ∃ w, get_atomic_weight p.1 = .ok w)
    (h2 : ∃ p ∈ pairs, 0 < p.2) :
    (∃ out, empirical_formula_from_pairs pairs tol = .ok out) ∧
    ((sym, (0 : Rat)) ∈ pairs →
      ∃ rlist, (∀ ks, probe_loop rlist tol ks = format_formula (fallback_counts rlist)) ∧
        empirical_formula_from_pairs pairs tol =
          .ok (format_formula (fallback_counts rlist)) ∧
        ((pairs.map Prod.fst).count sym = 1 →
          dict_get? (fallback_counts rlist) sym = some 1)) := by
  rcases moles_spec_ok pairs h1 with ⟨moles, hmoles, hfm⟩
  have hpos_m : ∃ q ∈ moles, 0 < q.2 := by
    rcases h2 with ⟨p, hp, hp2⟩
    rcases forall₂_mem_left hfm hp with ⟨q, hq, hfst, w, hw, hwpos, hval⟩
    exact ⟨q, hq, hval ▸ div_pos hp2 hwpos⟩
  rcases min_positive_ok moles hpos_m with ⟨minmol, hmin, hminpos⟩
  rcases ratios_loop_ok minmol (ne_of_gt hminpos) moles with ⟨rlist, hr, hfr⟩
  have hemp : empirical_formula_from_pairs pairs tol =
      .ok (probe_loop rlist tol probe_ks) := by
    simp only [empirical_formula_from_pairs, moles_of_eq_spec, hmoles, hmin, hr]
  refine ⟨⟨_, hemp⟩, ?_⟩
  intro hsym
  have h0m : (sym, (0 : Rat)) ∈ moles := by
    rcases forall₂_mem_left hfm hsym with ⟨q, hq, hfst, w, hw, hwpos, hval⟩
    have hq' : q = (sym, 0) := by
      rcases q with ⟨qs, qv⟩
      simp only at hfst hval
      rw [hfst, hval]
      norm_num
    exact hq' ▸ hq
  have h0r : (sym, (0 : Rat)) ∈ rlist := by
    rcases forall₂_mem_left hfr h0m with ⟨q, hq, hfst, hval⟩
    have hq' : q = (sym, 0) := by
      rcases q with ⟨qs, qv⟩
      simp only at hfst hval
      rw [hfst, hval]
      norm_num
    exact hq' ▸ hq
  refine ⟨rlist, fun ks => probe_loop_fallback rlist tol ks ⟨(sym, 0), h0r, rfl⟩, ?_, ?_⟩
  · rw [hemp, probe_loop_fallback rlist tol probe_ks ⟨(sym, 0), h0r, rfl⟩]
  · intro hcount
    have hcount_r : (rlist.map Prod.fst).count sym = 1 := by
      rw [forall₂_fst_eq hfr (fun a b hab => hab.1),
        forall₂_fst_eq hfm (fun a b hab => hab.1)]
      exact hcount
    rw [fallback_counts_get rlist sym 0 h0r hcount_r, pyRound_zero]
    rfl

theorem claim_C10_witness :
    (∃ out, empirical_formula_from_pairs [("H", 1), ("O", 0)] (1 / 20) = .ok out) ∧
    (("O", (0 : Rat)) ∈ [(("H" : String), (1 : Rat)), ("O", 0)] →
      ∃ rlist, (∀ ks, probe_loop rlist (1 / 20) ks =
          format_formula (fallback_counts rlist)) ∧
        empirical_formula_from_pairs [("H", 1), ("O", 0)] (1 / 20) =
          .ok (format_formula (fallback_counts rlist)) ∧
        (([(("H" : String), (1 : Rat)), ("O", 0)].map Prod.fst).count "O" = 1 →
          dict_get? (fallback_counts rlist) "O" = some 1)) :=
  claim_C10 [("H", 1), ("O", 0)] (1 / 20) "O"
    (by
      intro p hp
      rcases List.mem_cons.mp hp with rfl | hp'
      · exact ⟨_, gw_H⟩
      · rcases List.mem_cons.mp hp' with rfl | hp''
        · exact ⟨_, gw_O⟩
        · simp at hp'')
    ⟨("H", 1), List.mem_cons_self .., by norm_num⟩

/-! ## Parser invariants (machinery for C3 and C4) -/

/-- Every entry of `dict_set d k v` is the written pair or an original
entry. -/
theorem mem_dict_set (d : Counts) (k : String) (v : Int) (p : String × Int)
    (hp : p ∈ dict_set d k v) : p = (k, v) ∨ p ∈ d := by
  rw [dict_set] at hp
  split at hp
  · rcases List.mem_map.mp hp with ⟨q, hq, hfq⟩
    by_cases hqk : q.1 = k
    · rw [if_pos hqk] at hfq
      exact Or.inl hfq.symm
    · rw [if_neg hqk] at hfq
      exact Or.inr (hfq ▸ hq)
  · rcases List.mem_append.mp hp with h | h
    · exact Or.inr h
    · exact Or.inl (by simpa using h)

/-- `dict_set` keeps the key list duplicate-free. -/
theorem dict_set_nodup (d : Counts) (k : String) (v : Int)
    (h : (d.map Prod.fst).Nodup) : ((dict_set d k v).map Prod.fst).Nodup := by
  rw [dict_set]
  split
  · rw [List.map_map]
    have : d.map (Prod.fst ∘ fun p => if p.1 = k then (k, v) else p) = d.map Prod.fst := by
      apply List.map_congr_left
      intro q _
      by_cases hq : q.1 = k
      · simp [hq]
      · simp [hq]
    rw [this]
    exact h
  · rename_i hany
    rw [List.map_append]
    simp only [List.map_cons, List.map_nil]
    rw [List.nodup_append]
    refine ⟨h, List.nodup_singleton _, ?_⟩
    intro a ha hb
    simp only [List.mem_singleton] at hb
    subst hb
    rcases List.mem_map.mp ha with ⟨q, hq, hfq⟩
    exact hany (List.any_eq_true.mpr ⟨q, hq, by simp [hfq]⟩)

/-- `counts.get(k, 0)` is nonnegative when every stored value is at least
a nonnegative bound. -/
theorem dict_get_nonneg (lo : Int) (hlo : 0 ≤ lo) (d : Counts) (k : String)
    (h : ∀ p ∈ d, lo ≤ p.2) : 0 ≤ dict_get d k := by
  rw [dict_get, dict_get?]
  cases hF : d.find? (fun p => p.1 = k) with
  | none => simp
  | some q =>
    rw [show ((some q).map (fun p => p.2)).getD 0 = q.2 from rfl]
    exact le_trans hlo (h q (List.mem_of_find?_eq_some hF))

/-- Value/key invariants survive `merge_counts`. -/
theorem merge_counts_pred (lo : Int) (hlo : 0 ≤ lo) (P : String → Prop) :
    ∀ (b a : Counts), (∀ p ∈ a, lo ≤ p.2 ∧ P p.1) → (∀ p ∈ b, lo ≤ p.2 ∧ P p.1) →
      ∀ p ∈ merge_counts a b, lo ≤ p.2 ∧ P p.1 := by
  intro b
  induction b with
  | nil => intro a ha _ p hp ; exact ha p hp
  | cons q rest ih =>
    intro a ha hb p hp
    rw [merge_counts, List.foldl_cons] at hp
    refine ih _ ?_ (fun x hx => hb x (List.mem_cons_of_mem _ hx)) p hp
    intro x hx
    rcases mem_dict_set _ _ _ _ hx with rfl | hx'
    · constructor
      · have h1 := dict_get_nonneg lo hlo a q.1 (fun y hy => (ha y hy).1)
        have h2 := (hb q (List.mem_cons_self ..)).1
        omega
      · exact (hb q (List.mem_cons_self ..)).2
    · exact ha x hx'

/-- Key-list uniqueness survives `merge_counts`. -/
theorem merge_counts_nodup : ∀ (b a : Counts), (a.map Prod.fst).Nodup →
    ((merge_counts a b).map Prod.fst).Nodup := by
  intro b
  induction b with
  | nil => intro a ha ; exact ha
  | cons q rest ih =>
    intro a ha
    rw [merge_counts, List.foldl_cons]
    exact ih _ (dict_set_nodup _ _ _ ha)

/-- Value/key invariants survive `multiply_counts` by a factor at least
the bound (the bound being 0 or 1). -/
theorem multiply_counts_pred (lo : Int) (hlo : 0 ≤ lo) (P : String → Prop)
    (d : Counts) (k : Int) (hk : lo ≤ k)
    (h : ∀ p ∈ d, lo ≤ p.2 ∧ P p.1) (hll : lo ≤ lo * lo) :
    ∀ p ∈ multiply_counts d k, lo ≤ p.2 ∧ P p.1 := by
  intro p hp
  rcases List.mem_map.mp hp with ⟨q, hq, rfl⟩
  refine ⟨?_, (h q hq).2⟩
  have h1 := (h q hq).1
  calc lo ≤ lo * lo := hll
    _ ≤ q.2 * k := mul_le_mul h1 hk hlo (le_trans hlo h1)

theorem multiply_counts_nodup (d : Counts) (k : Int)
    (h : (d.map Prod.fst).Nodup) : ((multiply_counts d k).map Prod.fst).Nodup := by
  rw [multiply_counts, List.map_map]
  exact h

/-- Value/key invariants survive `dict.update`. -/
theorem dict_update_pred (lo : Int) (P : String → Prop) :
    ∀ (b a : Counts), (∀ p ∈ a, lo ≤ p.2 ∧ P p.1) → (∀ p ∈ b, lo ≤ p.2 ∧ P p.1) →
      ∀ p ∈ dict_update a b, lo ≤ p.2 ∧ P p.1 := by
  intro b
  induction b with
  | nil => intro a ha _ p hp ; exact ha p hp
  | cons q rest ih =>
    intro a ha hb p hp
    rw [dict_update, List.foldl_cons] at hp
    refine ih _ ?_ (fun x hx => hb x (List.mem_cons_of_mem _ hx)) p hp
    intro x hx
    rcases mem_dict_set _ _ _ _ hx with rfl | hx'
    · exact hb q (List.mem_cons_self ..)
    · exact ha x hx'

theorem dict_update_nodup : ∀ (b a : Counts), (a.map Prod.fst).Nodup →
    ((dict_update a b).map Prod.fst).Nodup := by
  intro b
  induction b with
  | nil => intro a ha ; exact ha
  | cons q rest ih =>
    intro a ha
    rw [dict_update, List.foldl_cons]
    exact ih _ (dict_set_nodup _ _ _ ha)

/-- The single induction over `parse_unit`: for an accepted unit the
leftover tokens are a suffix of the input, and the produced dict
inherits the value bound (`lo`, which is 0 or 1; the bound 1 needs every
Number token at least 1), the key predicate (from the element tokens),
and key-list uniqueness. -/
theorem parse_unit_inv (lo : Int) (hlo0 : 0 ≤ lo) (hlo1 : lo ≤ 1)
    (hll : lo ≤ lo * lo) (P : String → Prop) :
    ∀ (f : Nat) (ts : List Token) (c : Counts) (r : Counts) (ts' : List Token),
      parse_unit f ts c = .ok (r, ts') →
      (∀ n, Token.number n ∈ ts → lo ≤ (n : Int)) →
      (∀ el, Token.elem el ∈ ts → P el) →
      (∀ p ∈ c, lo ≤ p.2 ∧ P p.1) →
      (c.map Prod.fst).Nodup →
      ts' <:+ ts ∧ (∀ p ∈ r, lo ≤ p.2 ∧ P p.1) ∧ (r.map Prod.fst).Nodup := by
  intro f
  induction f with
  | zero =>
    intro ts c r ts' h _ _ _ _
    simp [parse_unit] at h
  | succ f ih =>
    intro ts c r ts' h hnum helem hc hnodup
    cases ts with
    | nil =>
      simp only [parse_unit, Except.ok.injEq, Prod.mk.injEq] at h
      obtain ⟨rfl, rfl⟩ := h
      exact ⟨List.nil_suffix, hc, hnodup⟩
    | cons t rest =>
      cases t with
      | rparen =>
        simp only [parse_unit, Except.ok.injEq, Prod.mk.injEq] at h
        obtain ⟨rfl, rfl⟩ := h
        exact ⟨List.suffix_refl _, hc, hnodup⟩
      | dot =>
        simp only [parse_unit] at h
        split at h
        · simp at h
        · rename_i right rest' hrec
          simp only [Except.ok.injEq, Prod.mk.injEq] at h
          obtain ⟨rfl, rfl⟩ := h
          obtain ⟨hsuf, hval, -⟩ := ih rest [] right rest' hrec
            (fun n hn => hnum n (List.mem_cons_of_mem _ hn))
            (fun e he => helem e (List.mem_cons_of_mem _ he))
            (by simp) (by simp)
          refine ⟨hsuf.trans (List.suffix_cons _ _), ?_, ?_⟩
          · exact dict_update_pred lo P _ c hc
              (merge_counts_pred lo hlo0 P right c hc hval)
          · exact dict_update_nodup _ c hnodup
      | elem el =>
        have hget : 0 ≤ dict_get c el :=
          dict_get_nonneg lo hlo0 c el (fun y hy => (hc y hy).1)
        have hP : P el := helem el (List.mem_cons_self ..)
        simp only [parse_unit] at h
        split at h
        · rename_i n rest₁
          have hn : lo ≤ (n : Int) := hnum n (by simp)
          have hcounts' : ∀ p ∈ dict_set c el (dict_get c el + (n : Int)),
              lo ≤ p.2 ∧ P p.1 := by
            intro p hp
            rcases mem_dict_set _ _ _ _ hp with rfl | hp'
            · exact ⟨by omega, hP⟩
            · exact hc p hp'
          obtain ⟨hsuf, hval, hnd⟩ := ih rest₁ _ r ts' h
            (fun x hx => hnum x (by simp [hx]))
            (fun e he => helem e (by simp [he]))
            hcounts' (dict_set_nodup _ _ _ hnodup)
          exact ⟨hsuf.trans ((List.suffix_cons _ _).trans (List.suffix_cons _ _)),
            hval, hnd⟩
        · have hcounts' : ∀ p ∈ dict_set c el (dict_get c el + 1),
              lo ≤ p.2 ∧ P p.1 := by
            intro p hp
            rcases mem_dict_set _ _ _ _ hp with rfl | hp'
            · exact ⟨by omega, hP⟩
            · exact hc p hp'
          obtain ⟨hsuf, hval, hnd⟩ := ih rest _ r ts' h
            (fun x hx => hnum x (List.mem_cons_of_mem _ hx))
            (fun e he => helem e (List.mem_cons_of_mem _ he))
            hcounts' (dict_set_nodup _ _ _ hnodup)
          exact ⟨hsuf.trans (List.suffix_cons _ _), hval, hnd⟩
      | lparen =>
        simp only [parse_unit] at h
        split at h
        · simp at h
        · rename_i inner rest₁ hrec
          obtain ⟨hsuf₁, hval₁, -⟩ := ih rest [] inner rest₁ hrec
            (fun n hn => hnum n (List.mem_cons_of_mem _ hn))
            (fun e he => helem e (List.mem_cons_of_mem _ he))
            (by simp) (by simp)
          split at h
          · rename_i rest₂
            split at h
            · rename_i n rest₃
              have hnmem : Token.number n ∈ rest := hsuf₁.subset (by simp)
              have hn : lo ≤ (n : Int) := hnum n (List.mem_cons_of_mem _ hnmem)
              have hmul := multiply_counts_pred lo hlo0 P inner _ hn hval₁ hll
              have hsub3 : ∀ t, t ∈ rest₃ → t ∈ rest := fun t ht =>
                hsuf₁.subset (by simp [ht])
              obtain ⟨hsuf, hval, hnd⟩ := ih rest₃ _ r ts' h
                (fun x hx => hnum x (List.mem_cons_of_mem _ (hsub3 _ hx)))
                (fun e he => helem e (List.mem_cons_of_mem _ (hsub3 _ he)))
                (merge_counts_pred lo hlo0 P _ c hc hmul)
                (merge_counts_nodup _ c hnodup)
              have h3 : rest₃ <:+ rest :=
                ((List.suffix_cons _ _).trans (List.suffix_cons _ _)).trans hsuf₁
              exact ⟨hsuf.trans (h3.trans (List.suffix_cons _ _)), hval, hnd⟩
            · have hmul := multiply_counts_pred lo hlo0 P inner 1 hlo1 hval₁ hll
              have hsub2 : ∀ t, t ∈ rest₂ → t ∈ rest := fun t ht =>
                hsuf₁.subset (by simp [ht])
              obtain ⟨hsuf, hval, hnd⟩ := ih rest₂ _ r ts' h
                (fun x hx => hnum x (List.mem_cons_of_mem _ (hsub2 _ hx)))
                (fun e he => helem e (List.mem_cons_of_mem _ (hsub2 _ he)))
                (merge_counts_pred lo hlo0 P _ c hc hmul)
                (merge_counts_nodup _ c hnodup)
              have h2 : rest₂ <:+ rest := (List.suffix_cons _ _).trans hsuf₁
              exact ⟨hsuf.trans (h2.trans (List.suffix_cons _ _)), hval, hnd⟩
          · simp at h
      | number m =>
        have hm : lo ≤ (m : Int) := hnum m (List.mem_cons_self ..)
        simp only [parse_unit] at h
        split at h
        · rename_i el rest₁
          have hP : P el := helem el (by simp)
          have hget : 0 ≤ dict_get c el :=
            dict_get_nonneg lo hlo0 c el (fun y hy => (hc y hy).1)
          split at h
          · rename_i cnt rest₂
            have hcnt : lo ≤ (cnt : Int) := hnum cnt (by simp)
            have hprod : lo ≤ (m : Int) * (cnt : Int) := by
              calc lo ≤ lo * lo := hll
                _ ≤ (m : Int) * (cnt : Int) :=
                  mul_le_mul hm hcnt hlo0 (le_trans hlo0 hm)
            have hcounts' :
                ∀ p ∈ dict_set c el (dict_get c el + (m : Int) * (cnt : Int)),
                  lo ≤ p.2 ∧ P p.1 := by
              intro p hp
              rcases mem_dict_set _ _ _ _ hp with rfl | hp'
              · exact ⟨by omega, hP⟩
              · exact hc p hp'
            obtain ⟨hsuf, hval, hnd⟩ := ih rest₂ _ r ts' h
              (fun x hx => hnum x (by simp [hx]))
              (fun e he => helem e (by simp [he]))
              hcounts' (dict_set_nodup _ _ _ hnodup)
            exact ⟨hsuf.trans (((List.suffix_cons _ _).trans
              (List.suffix_cons _ _)).trans (List.suffix_cons _ _)), hval, hnd⟩
          · have hprod : lo ≤ (m : Int) * 1 := by
              rw [mul_one]
              exact hm
            have hcounts' :
                ∀ p ∈ dict_set c el (dict_get c el + (m : Int) * 1),
                  lo ≤ p.2 ∧ P p.1 := by
              intro p hp
              rcases mem_dict_set _ _ _ _ hp with rfl | hp'
              · exact ⟨by omega, hP⟩
              · exact hc p hp'
            obtain ⟨hsuf, hval, hnd⟩ := ih rest₁ _ r ts' h
              (fun x hx => hnum x (by simp [hx]))
              (fun e he => helem e (by simp [he]))
              hcounts' (dict_set_nodup _ _ _ hnodup)
            exact ⟨hsuf.trans ((List.suffix_cons _ _).trans
              (List.suffix_cons _ _)), hval, hnd⟩
        · rename_i rest₁
          split at h
          · simp at h
          · rename_i inner rest₂ hrec
            obtain ⟨hsuf₁, hval₁, -⟩ := ih rest₁ [] inner rest₂ hrec
              (fun n hn => hnum n (by simp [hn]))
              (fun e he => helem e (by simp [he]))
              (by simp) (by simp)
            split at h
            · rename_i rest₃
              split at h
              · rename_i cnt rest₄
                have hcntmem : Token.number cnt ∈ rest₁ := hsuf₁.subset (by simp)
                have hcnt : lo ≤ (cnt : Int) := hnum cnt (by simp [hcntmem])
                have hprod : lo ≤ (m : Int) * (cnt : Int) := by
                  calc lo ≤ lo * lo := hll
                    _ ≤ (m : Int) * (cnt : Int) :=
                      mul_le_mul hm hcnt hlo0 (le_trans hlo0 hm)
                have hmul := multiply_counts_pred lo hlo0 P inner _ hprod hval₁ hll
                have hsub4 : ∀ t, t ∈ rest₄ → t ∈ rest₁ := fun t ht =>
                  hsuf₁.subset (by simp [ht])
                obtain ⟨hsuf, hval, hnd⟩ := ih rest₄ _ r ts' h
                  (fun x hx => hnum x (by simp [hsub4 _ hx]))
                  (fun e he => helem e (by simp [hsub4 _ he]))
                  (merge_counts_pred lo hlo0 P _ c hc hmul)
                  (merge_counts_nodup _ c hnodup)
                have h4 : rest₄ <:+ rest₁ :=
                  ((List.suffix_cons _ _).trans (List.suffix_cons _ _)).trans hsuf₁
                exact ⟨hsuf.trans ((h4.trans (List.suffix_cons _ _)).trans
                  (List.suffix_cons _ _)), hval, hnd⟩
              · have hmul : ∀ p ∈ multiply_counts inner ((m : Int) * 1),
                    lo ≤ p.2 ∧ P p.1 := by
                  refine multiply_counts_pred lo hlo0 P inner _ ?_ hval₁ hll
                  rw [mul_one]
                  exact hm
                have hsub3 : ∀ t, t ∈ rest₃ → t ∈ rest₁ := fun t ht =>
                  hsuf₁.subset (by simp [ht])
                obtain ⟨hsuf, hval, hnd⟩ := ih rest₃ _ r ts' h
                  (fun x hx => hnum x (by simp [hsub3 _ hx]))
                  (fun e he => helem e (by simp [hsub3 _ he]))
                  (merge_counts_pred lo hlo0 P _ c hc hmul)
                  (merge_counts_nodup _ c hnodup)
                have h3 : rest₃ <:+ rest₁ := (List.suffix_cons _ _).trans hsuf₁
                exact ⟨hsuf.trans ((h3.trans (List.suffix_cons _ _)).trans
                  (List.suffix_cons _ _)), hval, hnd⟩
            · simp at h
        · simp at h

/-! ## C3 -/

/-- C3 (amended): zero multipliers are accepted and can leave zero-valued
keys (see the counterexample "H0"); but whenever every Number token in
the tokenization is at least 1, every value of the parsed AtomCount is
strictly positive. -/
theorem claim_C3_amended (s : String) (ts : List Token) (m : Counts)
    (htok : tokenize s.data = .ok ts)
    (hpos : ∀ n, Token.number n ∈ ts → 0 < n)
    (hm : parse_formula s = .ok m) :
    ∀ p ∈ m, 0 < p.2 := by
  simp only [parse_formula, htok] at hm
  cases hpu : parse_unit (ts.length + 1) ts [] with
  | error e =>
    rw [hpu] at hm
    cases hm
  | ok pr =>
    obtain ⟨total, rest⟩ := pr
    rw [hpu] at hm
    have htm : total = m := by
      cases rest with
      | nil => simpa using hm
      | cons t rest' =>
        cases t with
        | rparen => simp at hm
        | dot => simpa using hm
        | lparen => simpa using hm
        | number n => simpa using hm
        | elem e => simpa using hm
    obtain ⟨-, hval, -⟩ := parse_unit_inv 1 (by norm_num) (le_refl 1) (by norm_num)
      (fun _ => True) (ts.length + 1) ts [] total rest hpu
      (fun n hn => by have := hpos n hn ; omega)
      (fun _ _ => trivial) (by simp) (by simp)
    intro p hp
    have := (hval p (htm ▸ hp)).1
    omega

theorem claim_C3_witness : 0 < ((("H" : String), (2 : Int))).2 :=
  claim_C3_amended "H2O" [Token.elem "H", Token.number 2, Token.elem "O"]
    [("H", 2), ("O", 1)] rfl
    (by
      intro n hn
      simp at hn
      omega)
    rfl ("H", 2) (by simp)

/-! ## Tokenizer machinery (for C4) -/

theorem isUpperC_toNat {c : Char} (h : isUpperC c = true) :
    65 ≤ c.toNat ∧ c.toNat ≤ 90 := by
  simpa [isUpperC] using h

theorem isDigitC_toNat {c : Char} (h : isDigitC c = true) :
    48 ≤ c.toNat ∧ c.toNat ≤ 57 := by
  simpa [isDigitC] using h

theorem isLowerC_toNat {c : Char} (h : isLowerC c = true) :
    97 ≤ c.toNat ∧ c.toNat ≤ 122 := by
  simpa [isLowerC] using h

/-- An uppercase letter matches none of the earlier regex alternatives,
and is neither a lowercase letter nor a digit. -/
theorem upper_branch {c : Char} (h : isUpperC c = true) :
    isDotC c = false ∧ isLparenC c = false ∧ isRparenC c = false ∧
      isDigitC c = false ∧ isLowerC c = false := by
  obtain ⟨h1, h2⟩ := isUpperC_toNat h
  refine ⟨?_, ?_, ?_, ?_, ?_⟩ <;>
    simp only [isDotC, isLparenC, isRparenC, isDigitC, isLowerC,
      Bool.or_eq_false_iff, Bool.and_eq_false_iff,
      decide_eq_false_iff_not] <;>
    omega

/-- A digit matches none of the earlier regex alternatives and is not a
lowercase letter. -/
theorem digit_branch {c : Char} (h : isDigitC c = true) :
    isDotC c = false ∧ isLparenC c = false ∧ isRparenC c = false ∧
      isLowerC c = false := by
  obtain ⟨h1, h2⟩ := isDigitC_toNat h
  refine ⟨?_, ?_, ?_, ?_⟩ <;>
    simp only [isDotC, isLparenC, isRparenC, isLowerC,
      Bool.or_eq_false_iff, Bool.and_eq_false_iff,
      decide_eq_false_iff_not] <;>
    omega

/-- The tokenizer is fuel-stable: any two sufficient fuels agree. -/
theorem tokenizeF_stable : ∀ (f g : Nat) (chars : List Char),
    chars.length < f → chars.length < g → tokenizeF f chars = tokenizeF g chars := by
  intro f
  induction f with
  | zero =>
    intro g chars hf _
    omega
  | succ f ih =>
    intro g chars hf hg
    cases g with
    | zero => omega
    | succ g =>
      cases chars with
      | nil => rfl
      | cons c cs =>
        simp only [List.length_cons, Nat.add_lt_add_iff_right] at hf hg
        have hdw : ∀ p : Char → Bool, (cs.dropWhile p).length ≤ cs.length :=
          fun p => (List.dropWhile_sublist p).length_le
        simp only [tokenizeF]
        split
        · rw [ih g cs hf hg]
        · split
          · rw [ih g cs hf hg]
          · split
            · rw [ih g cs hf hg]
            · split
              · rw [ih g (cs.dropWhile isDigitC)
                  (lt_of_le_of_lt (hdw _) hf) (lt_of_le_of_lt (hdw _) hg)]
              · split
                · split
                  · rename_i d ds
                    split
                    · rw [ih g ds
                        (by simp only [List.length_cons] at hf ; omega)
                        (by simp only [List.length_cons] at hg ; omega)]
                    · rw [ih g (d :: ds) hf hg]
                  · rw [ih g [] (by omega) (by omega)]
                · split
                  · rw [ih g (cs.dropWhile isSpaceC)
                      (lt_of_le_of_lt (hdw _) hf) (lt_of_le_of_lt (hdw _) hg)]
                  · rfl

/-- `takeWhile`/`dropWhile` on a run of matching characters followed by a
non-matching (or empty) remainder. -/
theorem takeWhile_dropWhile_all {p : Char → Bool} : ∀ (l r : List Char),
    (∀ x ∈ l, p x = true) → (∀ x xs, r = x :: xs → p x = false) →
    (l ++ r).takeWhile p = l ∧ (l ++ r).dropWhile p = r := by
  intro l
  induction l with
  | nil =>
    intro r _ hr
    cases r with
    | nil => exact ⟨rfl, rfl⟩
    | cons x xs =>
      rw [List.nil_append]
      constructor
      · exact List.takeWhile_cons_of_neg (by simp [hr x xs rfl])
      · exact List.dropWhile_cons_of_neg (by simp [hr x xs rfl])
  | cons y l ih =>
    intro r hl hr
    have hy : p y = true := hl y (List.mem_cons_self ..)
    obtain ⟨h1, h2⟩ := ih r (fun x hx => hl x (List.mem_cons_of_mem _ hx)) hr
    rw [List.cons_append]
    constructor
    · rw [List.takeWhile_cons_of_pos hy, h1]
    · rw [List.dropWhile_cons_of_pos hy, h2]

/-- The one-step unfolding of the tokenizer at positive fuel. -/
theorem tokenizeF_step (f : Nat) (c : Char) (cs : List Char) :
    tokenizeF (f + 1) (c :: cs) =
      if isDotC c then (tokenizeF f cs).map (Token.dot :: ·)
      else if isLparenC c then (tokenizeF f cs).map (Token.lparen :: ·)
      else if isRparenC c then (tokenizeF f cs).map (Token.rparen :: ·)
      else if isDigitC c then
        (tokenizeF f (cs.dropWhile isDigitC)).map
          (Token.number (digitsToNat (c :: cs.takeWhile isDigitC)) :: ·)
      else if isUpperC c then
        match cs with
        | c₂ :: cs₂ =>
          if isLowerC c₂ then (tokenizeF f cs₂).map (Token.elem ⟨[c, c₂]⟩ :: ·)
          else (tokenizeF f (c₂ :: cs₂)).map (Token.elem ⟨[c]⟩ :: ·)
        | [] => (tokenizeF f []).map (Token.elem ⟨[c]⟩ :: ·)
      else if isSpaceC c then tokenizeF f (cs.dropWhile isSpaceC)
      else .error .unrecognizedToken := rfl

/-- One tokenizer step on a digit run followed by a non-digit remainder:
one Number token carrying the `int` of the run. -/
theorem tokenize_digits (d : Char) (ds next : List Char)
    (hd : isDigitC d = true) (hds : ∀ x ∈ ds, isDigitC x = true)
    (hnext : ∀ x xs, next = x :: xs → isDigitC x = false) :
    tokenize ((d :: ds) ++ next) =
      (tokenize next).map (Token.number (digitsToNat (d :: ds)) :: ·) := by
  obtain ⟨htake, hdrop⟩ := takeWhile_dropWhile_all ds next hds hnext
  obtain ⟨hd1, hd2, hd3, -⟩ := digit_branch hd
  rw [tokenize, List.cons_append, List.length_cons, tokenizeF_step,
    if_neg (by simp [hd1]), if_neg (by simp [hd2]), if_neg (by simp [hd3]),
    if_pos hd, htake, hdrop,
    tokenizeF_stable ((ds ++ next).length + 1) (next.length + 1) next
      (by simp ; omega) (by omega)]
  rfl

/-- One tokenizer step on a valid element symbol followed by a remainder
that does not start with a lowercase letter: one ElementSymbol token. -/
theorem tokenize_sym (el : String) (next : List Char) (hval : validSym el)
    (hnext : ∀ x xs, next = x :: xs → isLowerC x = false) :
    tokenize (el.data ++ next) = (tokenize next).map (Token.elem el :: ·) := by
  rcases hval with ⟨u, rfl, hu⟩ | ⟨u, l, rfl, hu, hl⟩
  · obtain ⟨h1, h2, h3, h4, -⟩ := upper_branch hu
    show tokenize (u :: next) = _
    rw [tokenize, List.length_cons, tokenizeF_step,
      if_neg (by simp [h1]), if_neg (by simp [h2]), if_neg (by simp [h3]),
      if_neg (by simp [h4]), if_pos hu]
    cases next with
    | nil => rfl
    | cons x xs =>
      dsimp only
      rw [if_neg (show ¬ (isLowerC x = true) by rw [hnext x xs rfl] ; simp)]
      rfl
  · obtain ⟨h1, h2, h3, h4, -⟩ := upper_branch hu
    show tokenize (u :: l :: next) = _
    rw [tokenize, List.length_cons, List.length_cons, tokenizeF_step,
      if_neg (by simp [h1]), if_neg (by simp [h2]), if_neg (by simp [h3]),
      if_neg (by simp [h4]), if_pos hu]
    dsimp only
    rw [if_pos hl,
      tokenizeF_stable (next.length + 1 + 1) (next.length + 1) next
        (by omega) (by omega)]
    rfl

/-- The digit renderer is fuel-stable. -/
theorem natToDigitsF_stable : ∀ (f g n : Nat), n < f → n < g →
    natToDigitsF f n = natToDigitsF g n := by
  intro f
  induction f with
  | zero => intro g n hf _ ; omega
  | succ f ih =>
    intro g n hf hg
    cases g with
    | zero => omega
    | succ g =>
      simp only [natToDigitsF]
      split
      · rfl
      · rename_i hn
        rw [ih g (n / 10) (by omega) (by omega)]

theorem natToDigits_lt (n : Nat) (h : n < 10) : natToDigits n = [digitChar n] := by
  rw [natToDigits, natToDigitsF, if_pos h]

theorem natToDigits_ge (n : Nat) (h : ¬ n < 10) :
    natToDigits n = natToDigits (n / 10) ++ [digitChar (n % 10)] := by
  rw [natToDigits, natToDigitsF, if_neg h, natToDigits,
    natToDigitsF_stable n (n / 10 + 1) (n / 10) (by omega) (by omega)]

theorem digitChar_digit (d : Nat) (h : d < 10) :
    isDigitC (digitChar d) = true ∧ digitVal (digitChar d) = d := by
  interval_cases d <;> exact ⟨rfl, rfl⟩

/-- Every character of a rendered natural is a digit. -/
theorem natToDigits_all_digits (n : Nat) :
    ∀ c ∈ natToDigits n, isDigitC c = true := by
  induction n using Nat.strong_induction_on with
  | _ n ih =>
    by_cases h : n < 10
    · rw [natToDigits_lt n h]
      intro c hc
      rw [List.mem_singleton] at hc
      subst hc
      exact (digitChar_digit n h).1
    · rw [natToDigits_ge n h]
      intro c hc
      rcases List.mem_append.mp hc with hc' | hc'
      · exact ih (n / 10) (Nat.div_lt_self (by omega) (by omega)) c hc'
      · rw [List.mem_singleton] at hc'
        subst hc'
        exact (digitChar_digit _ (Nat.mod_lt _ (by omega))).1

theorem natToDigits_ne_nil (n : Nat) : natToDigits n ≠ [] := by
  by_cases h : n < 10
  · rw [natToDigits_lt n h]
    simp
  · rw [natToDigits_ge n h]
    simp

theorem digitsToNat_append_one (a : List Char) (c : Char) :
    digitsToNat (a ++ [c]) = 10 * digitsToNat a + digitVal c := by
  rw [digitsToNat, digitsToNat, List.foldl_append, List.foldl_cons, List.foldl_nil]

/-- `int` of `str(n)` is `n`. -/
theorem digitsToNat_natToDigits (n : Nat) : digitsToNat (natToDigits n) = n := by
  induction n using Nat.strong_induction_on with
  | _ n ih =>
    by_cases h : n < 10
    · rw [natToDigits_lt n h, digitsToNat, List.foldl_cons, List.foldl_nil,
        (digitChar_digit n h).2]
      omega
    · rw [natToDigits_ge n h, digitsToNat_append_one,
        ih (n / 10) (Nat.div_lt_self (by omega) (by omega)),
        (digitChar_digit _ (Nat.mod_lt _ (by omega))).2]
      omega

theorem intToChars_nonneg (n : Int) (h : 0 ≤ n) :
    intToChars n = natToDigits n.toNat := by
  rw [intToChars, if_neg (by omega)]

/-- The flattened character rendering of formatter entries is empty or
starts with the uppercase head of the first symbol. -/
theorem entries_head_upper (entries : List (String × Int))
    (h : ∀ p ∈ entries, validSym p.1) :
    (entries.map entry_chars).flatten = [] ∨
      ∃ x xs, (entries.map entry_chars).flatten = x :: xs ∧ isUpperC x = true := by
  cases entries with
  | nil => exact Or.inl rfl
  | cons p rest =>
    right
    rcases h p (List.mem_cons_self ..) with ⟨u, hu, hup⟩ | ⟨u, l, hu, hup, hlo⟩
    · refine ⟨u, (if p.2 = 1 then [] else intToChars p.2) ++
        (rest.map entry_chars).flatten, ?_, hup⟩
      simp only [List.map_cons, List.flatten_cons, entry_chars, hu]
      rfl
    · refine ⟨u, ([l] ++ (if p.2 = 1 then [] else intToChars p.2)) ++
        (rest.map entry_chars).flatten, ?_, hup⟩
      simp only [List.map_cons, List.flatten_cons, entry_chars, hu]
      rfl

/-- Tokenizing the formatter's rendering of an entry list yields exactly
the entry tokens. -/
theorem tokenize_entries : ∀ (entries : List (String × Int)),
    (∀ p ∈ entries, validSym p.1 ∧ 0 ≤ p.2) →
    tokenize ((entries.map entry_chars).flatten) =
      .ok ((entries.map entry_tokens).flatten) := by
  intro entries
  induction entries with
  | nil => intro _ ; rfl
  | cons p rest ih =>
    intro h
    obtain ⟨hval, hnn⟩ := h p (List.mem_cons_self ..)
    have hrest := ih (fun q hq => h q (List.mem_cons_of_mem _ hq))
    have hhead := entries_head_upper rest (fun q hq => (h q (List.mem_cons_of_mem _ hq)).1)
    have hnotlower : ∀ x xs, (rest.map entry_chars).flatten = x :: xs →
        isLowerC x = false := by
      intro x xs hx
      rcases hhead with hnil | ⟨y, ys, hy, hyup⟩
      · rw [hnil] at hx
        cases hx
      · rw [hy] at hx
        injection hx with hxy _
        subst hxy
        exact (upper_branch hyup).2.2.2.2
    have hnotdigit : ∀ x xs, (rest.map entry_chars).flatten = x :: xs →
        isDigitC x = false := by
      intro x xs hx
      rcases hhead with hnil | ⟨y, ys, hy, hyup⟩
      · rw [hnil] at hx
        cases hx
      · rw [hy] at hx
        injection hx with hxy _
        subst hxy
        exact (upper_branch hyup).2.2.2.1
    simp only [List.map_cons, List.flatten_cons, entry_chars, entry_tokens]
    by_cases h1 : p.2 = 1
    · rw [if_pos h1, if_pos h1, List.append_nil,
        tokenize_sym p.1 _ hval hnotlower, hrest]
      rfl
    · rw [if_neg h1, if_neg h1, List.append_assoc, intToChars_nonneg p.2 hnn]
      obtain ⟨d, ds, hd⟩ : ∃ d ds, natToDigits p.2.toNat = d :: ds := by
        cases hnd : natToDigits p.2.toNat with
        | nil => exact absurd hnd (natToDigits_ne_nil _)
        | cons d ds => exact ⟨d, ds, rfl⟩
      have hdd : isDigitC d = true :=
        natToDigits_all_digits _ d (hd ▸ List.mem_cons_self ..)
      have hds : ∀ x ∈ ds, isDigitC x = true := fun x hx =>
        natToDigits_all_digits _ x (hd ▸ List.mem_cons_of_mem _ hx)
      rw [hd, List.cons_append,
        tokenize_sym p.1 _ hval (by
          intro x xs hx
          injection hx with hx1 _
          subst hx1
          exact (digit_branch hdd).2.2.2),
        ← List.cons_append,
        tokenize_digits d ds _ hdd hds hnotdigit, hrest,
        show digitsToNat (d :: ds) = p.2.toNat from hd ▸ digitsToNat_natToDigits _]
      rfl

/-- The flattened token rendering of formatter entries is empty or starts
with an element token. -/
theorem entries_tokens_head (entries : List (String × Int)) :
    (entries.map entry_tokens).flatten = [] ∨
      ∃ el ts, (entries.map entry_tokens).flatten = Token.elem el :: ts := by
  cases entries with
  | nil => exact Or.inl rfl
  | cons p rest =>
    exact Or.inr ⟨p.1, (if p.2 = 1 then [] else [Token.number p.2.toNat]) ++
      (rest.map entry_tokens).flatten, by simp [entry_tokens]⟩

/-- The parser's element step when the following tokens do not start with
a number (default multiplier 1). -/
theorem parse_unit_elem_step (f : Nat) (s : String) (flat : List Token)
    (counts : Counts)
    (hshape : flat = [] ∨ ∃ el ts, flat = Token.elem el :: ts) :
    parse_unit (f + 1) (Token.elem s :: flat) counts =
      parse_unit f flat (dict_set counts s (dict_get counts s + 1)) := by
  rcases hshape with rfl | ⟨el, ts, rfl⟩ <;> rfl

/-- Parsing the token rendering of formatter entries accumulates exactly
one `dict_set` per entry and consumes all tokens. -/
theorem parse_entries : ∀ (entries : List (String × Int)) (f : Nat) (counts : Counts),
    ((entries.map entry_tokens).flatten).length < f →
    (∀ p ∈ entries, 0 ≤ p.2) →
    parse_unit f ((entries.map entry_tokens).flatten) counts =
      .ok (entries.foldl (fun c p => dict_set c p.1 (dict_get c p.1 + p.2)) counts,
        []) := by
  intro entries
  induction entries with
  | nil =>
    intro f counts hf _
    cases f with
    | zero => omega
    | succ f => rfl
  | cons p rest ih =>
    intro f counts hf hnn
    have hnnp : 0 ≤ p.2 := hnn p (List.mem_cons_self ..)
    have hnr : ∀ q ∈ rest, 0 ≤ q.2 := fun q hq => hnn q (List.mem_cons_of_mem _ hq)
    cases f with
    | zero =>
      simp only [List.map_cons, List.flatten_cons, List.length_append] at hf
      omega
    | succ f =>
      simp only [List.map_cons, List.flatten_cons, List.foldl_cons]
      by_cases h1 : p.2 = 1
      · have hsh := entries_tokens_head rest
        rw [show entry_tokens p = [Token.elem p.1] from by
            simp [entry_tokens, h1],
          List.cons_append, List.nil_append,
          parse_unit_elem_step f p.1 _ counts hsh,
          ih f _ (by
            simp only [List.map_cons, List.flatten_cons, List.length_append,
              show (entry_tokens p).length = 1 from by simp [entry_tokens, h1]] at hf
            omega) hnr,
          h1]
      · rw [show entry_tokens p = [Token.elem p.1, Token.number p.2.toNat] from by
            simp [entry_tokens, h1],
          List.cons_append, List.cons_append, List.nil_append]
        have hred : parse_unit (f + 1)
            (Token.elem p.1 :: Token.number p.2.toNat ::
              (rest.map entry_tokens).flatten) counts =
            parse_unit f ((rest.map entry_tokens).flatten)
              (dict_set counts p.1 (dict_get counts p.1 + (p.2.toNat : Int))) := rfl
        rw [hred, Int.toNat_of_nonneg hnnp,
          ih f _ (by
            simp only [List.map_cons, List.flatten_cons, List.length_append,
              show (entry_tokens p).length = 2 from by simp [entry_tokens, h1]] at hf
            omega) hnr]

/-- Folding the element step over entries whose keys are fresh and
pairwise distinct just appends the entries. -/
theorem foldl_step_fresh : ∀ (entries : List (String × Int)) (acc : Counts),
    (∀ p ∈ entries, p.1 ∉ acc.map Prod.fst) →
    (entries.map Prod.fst).Nodup →
    entries.foldl (fun c p => dict_set c p.1 (dict_get c p.1 + p.2)) acc =
      acc ++ entries := by
  intro entries
  induction entries with
  | nil =>
    intro acc _ _
    simp
  | cons p rest ih =>
    intro acc hfresh hnd
    have hpk : p.1 ∉ acc.map Prod.fst := hfresh p (List.mem_cons_self ..)
    have hany : acc.any (fun q => decide (q.1 = p.1)) = false := by
      rw [Bool.eq_false_iff]
      intro hany
      rcases List.any_eq_true.mp hany with ⟨q, hq, hq1⟩
      simp only [decide_eq_true_eq] at hq1
      exact hpk (hq1 ▸ List.mem_map_of_mem Prod.fst hq)
    have hget : dict_get acc p.1 = 0 := by
      rw [dict_get, dict_get?, List.find?_eq_none.mpr]
      · rfl
      · intro q hq hq1
        simp only [decide_eq_true_eq] at hq1
        exact hpk (hq1 ▸ List.mem_map_of_mem Prod.fst hq)
    rw [List.foldl_cons, hget, dict_set, if_neg (by simp [hany]), zero_add,
      Prod.mk.eta, ih (acc ++ [p]) ?_ (by
        rw [List.map_cons] at hnd
        exact hnd.of_cons)]
    · simp
    · intro q hq
      rw [List.map_append, List.mem_append]
      rintro (hqa | hqp)
      · exact hfresh q (List.mem_cons_of_mem _ hq) hqa
      · rw [List.map_cons] at hnd
        simp only [List.map_cons, List.map_nil, List.mem_singleton] at hqp
        exact (List.nodup_cons.mp hnd).1 (hqp ▸ List.mem_map_of_mem Prod.fst hq)

/-- With unique keys, the stored entry characterizes the lookup. -/
theorem dict_get?_eq_some_iff : ∀ (d : Counts), (d.map Prod.fst).Nodup →
    ∀ (k : String) (v : Int), dict_get? d k = some v ↔ (k, v) ∈ d := by
  intro d
  induction d with
  | nil =>
    intro _ k v
    simp [dict_get?]
  | cons p rest ih =>
    intro hnd k v
    rw [List.map_cons, List.nodup_cons] at hnd
    by_cases hpk : p.1 = k
    · rw [dict_get?, List.find?_cons_of_pos _ (by simpa using hpk), List.mem_cons]
      show some p.2 = some v ↔ (k, v) = p ∨ (k, v) ∈ rest
      constructor
      · intro hv
        have hv2 : p.2 = v := by injection hv
        exact Or.inl (by rw [← hpk, ← hv2])
      · rintro (hv | hv)
        · have hv2 : p.2 = v := by rw [← hv]
          rw [hv2]
        · exact absurd (hpk ▸ List.mem_map_of_mem Prod.fst hv) hnd.1
    · rw [dict_get?, List.find?_cons_of_neg _ (by simpa using hpk)]
      rw [show ((rest.find? fun q => decide (q.1 = k)).map (fun q => q.2)) =
        dict_get? rest k from rfl, ih hnd.2 k v, List.mem_cons]
      constructor
      · exact Or.inr
      · rintro (hv | hv)
        · exact absurd (congrArg Prod.fst hv.symm) hpk
        · exact hv

theorem dict_get?_eq_none_iff (d : Counts) (k : String) :
    dict_get? d k = none ↔ ∀ p ∈ d, p.1 ≠ k := by
  rw [dict_get?, Option.map_eq_none', List.find?_eq_none]
  simp

/-- Lookups agree across a permutation with unique keys. -/
theorem perm_dict_get? (d₁ d₂ : Counts) (hperm : d₁.Perm d₂)
    (hnd : (d₁.map Prod.fst).Nodup) (k : String) :
    dict_get? d₁ k = dict_get? d₂ k := by
  have hnd₂ : (d₂.map Prod.fst).Nodup := ((hperm.map Prod.fst).nodup_iff).mp hnd
  cases h₁ : dict_get? d₁ k with
  | some v =>
    exact ((dict_get?_eq_some_iff d₂ hnd₂ k v).mpr
      (hperm.mem_iff.mp ((dict_get?_eq_some_iff d₁ hnd k v).mp h₁))).symm
  | none =>
    exact ((dict_get?_eq_none_iff d₂ k).mpr
      (fun p hp => (dict_get?_eq_none_iff d₁ k).mp h₁ p (hperm.mem_iff.mpr hp))).symm

theorem insert_sorted_perm {α : Type} (le : α → α → Bool) (x : α) :
    ∀ l : List α, (insert_sorted le x l).Perm (x :: l) := by
  intro l
  induction l with
  | nil => exact List.Perm.refl _
  | cons y ys ih =>
    rw [insert_sorted]
    split
    · exact List.Perm.refl _
    · exact (ih.cons y).trans (List.Perm.swap x y ys)

/-- `sorted(...)` permutes its input. -/
theorem sort_by_perm {α : Type} (le : α → α → Bool) :
    ∀ l : List α, (sort_by le l).Perm l := by
  intro l
  induction l with
  | nil => exact List.Perm.refl _
  | cons x xs ih =>
    exact (insert_sorted_perm le x (sort_by le xs)).trans (ih.cons x)

/-- Every element token the tokenizer emits carries a valid symbol (one
uppercase letter, optionally one lowercase letter). -/
theorem tokenizeF_elem_valid : ∀ (f : Nat) (chars : List Char) (ts : List Token),
    tokenizeF f chars = .ok ts → ∀ el, Token.elem el ∈ ts → validSym el := by
  intro f
  induction f with
  | zero =>
    intro chars ts h
    simp [tokenizeF] at h
  | succ f ih =>
    intro chars ts h el hel
    have hmap : ∀ (X : List Char) (tok : Token),
        (tokenizeF f X).map (tok :: ·) = .ok ts →
        ∃ ts₁, tokenizeF f X = .ok ts₁ ∧ ts = tok :: ts₁ := by
      intro X tok hmapeq
      cases hrec : tokenizeF f X with
      | error e =>
        rw [hrec] at hmapeq
        cases hmapeq
      | ok ts₁ =>
        rw [hrec] at hmapeq
        exact ⟨ts₁, rfl, (by injection hmapeq : tok :: ts₁ = ts).symm⟩
    cases chars with
    | nil =>
      simp only [tokenizeF, Except.ok.injEq] at h
      rw [← h] at hel
      simp at hel
    | cons c cs =>
      rw [tokenizeF_step] at h
      split at h
      · obtain ⟨ts₁, hrec, rfl⟩ := hmap _ _ h
        rcases List.mem_cons.mp hel with heq | htail
        · cases heq
        · exact ih cs ts₁ hrec el htail
      · split at h
        · obtain ⟨ts₁, hrec, rfl⟩ := hmap _ _ h
          rcases List.mem_cons.mp hel with heq | htail
          · cases heq
          · exact ih cs ts₁ hrec el htail
        · split at h
          · obtain ⟨ts₁, hrec, rfl⟩ := hmap _ _ h
            rcases List.mem_cons.mp hel with heq | htail
            · cases heq
            · exact ih cs ts₁ hrec el htail
          · split at h
            · obtain ⟨ts₁, hrec, rfl⟩ := hmap _ _ h
              rcases List.mem_cons.mp hel with heq | htail
              · cases heq
              · exact ih _ ts₁ hrec el htail
            · split at h
              · rename_i hup
                split at h
                · rename_i d ds
                  split at h
                  · rename_i hlow
                    obtain ⟨ts₁, hrec, rfl⟩ := hmap _ _ h
                    rcases List.mem_cons.mp hel with heq | htail
                    · injection heq with heq'
                      exact Or.inr ⟨c, d, heq', hup, hlow⟩
                    · exact ih _ ts₁ hrec el htail
                  · obtain ⟨ts₁, hrec, rfl⟩ := hmap _ _ h
                    rcases List.mem_cons.mp hel with heq | htail
                    · injection heq with heq'
                      exact Or.inl ⟨c, heq', hup⟩
                    · exact ih _ ts₁ hrec el htail
                · obtain ⟨ts₁, hrec, rfl⟩ := hmap _ _ h
                  rcases List.mem_cons.mp hel with heq | htail
                  · injection heq with heq'
                    exact Or.inl ⟨c, heq', hup⟩
                  · exact ih _ ts₁ hrec el htail
              · split at h
                · exact ih _ ts h el hel
                · cases h

/-- Invariants of every accepted parse: nonnegative counts, valid symbol
keys, unique keys. -/
theorem parse_formula_inv (s : String) (m : Counts) (h : parse_formula s = .ok m) :
    (∀ p ∈ m, 0 ≤ p.2 ∧ validSym p.1) ∧ (m.map Prod.fst).Nodup := by
  cases htok : tokenize s.data with
  | error e =>
    simp only [parse_formula, htok] at h
    cases h
  | ok ts =>
    simp only [parse_formula, htok] at h
    cases hpu : parse_unit (ts.length + 1) ts [] with
    | error e =>
      rw [hpu] at h
      cases h
    | ok pr =>
      obtain ⟨total, rest⟩ := pr
      rw [hpu] at h
      have htm : total = m := by
        cases rest with
        | nil => simpa using h
        | cons t rest' =>
          cases t with
          | rparen => simp at h
          | dot => simpa using h
          | lparen => simpa using h
          | number n => simpa using h
          | elem e => simpa using h
      have hinv := parse_unit_inv 0 le_rfl (by norm_num) (by norm_num) validSym
        (ts.length + 1) ts [] total rest hpu
        (fun n _ => Int.natCast_nonneg n)
        (fun el he => tokenizeF_elem_valid (s.data.length + 1) s.data ts htok el he)
        (by simp) (by simp)
      exact ⟨fun p hp => hinv.2.1 p (htm ▸ hp), htm ▸ hinv.2.2⟩

/-! ## C4 -/

/-- C4: for every accepted formula text, formatting the parse result and
re-parsing yields the same AtomCount (the same value at every key, i.e.
Python dict equality; the re-parse is the canonical permutation of the
original entries). -/
theorem claim_C4 (s : String) (m : Counts) (h : parse_formula s = .ok m) :
    ∃ m', parse_formula (format_formula m) = .ok m' ∧
      ∀ k, dict_get? m' k = dict_get? m k := by
  obtain ⟨hprops, hnodup⟩ := parse_formula_inv s m h
  have hperm : (sort_by fmt_le m).Perm m := sort_by_perm fmt_le m
  have hprops' : ∀ p ∈ sort_by fmt_le m, validSym p.1 ∧ 0 ≤ p.2 := fun p hp =>
    ⟨(hprops p (hperm.subset hp)).2, (hprops p (hperm.subset hp)).1⟩
  have hnd' : ((sort_by fmt_le m).map Prod.fst).Nodup :=
    ((hperm.map Prod.fst).nodup_iff).mpr hnodup
  have htok : tokenize (format_formula m).data =
      .ok (((sort_by fmt_le m).map entry_tokens).flatten) :=
    tokenize_entries (sort_by fmt_le m) hprops'
  have hparse := parse_entries (sort_by fmt_le m)
    ((((sort_by fmt_le m).map entry_tokens).flatten).length + 1) []
    (by omega) (fun p hp => (hprops' p hp).2)
  have hfold : (sort_by fmt_le m).foldl
      (fun c p => dict_set c p.1 (dict_get c p.1 + p.2)) [] = sort_by fmt_le m := by
    rw [foldl_step_fresh (sort_by fmt_le m) [] (by simp) hnd']
    simp
  refine ⟨sort_by fmt_le m, ?_, fun k => perm_dict_get? _ m hperm hnd' k⟩
  simp only [parse_formula, htok, hparse, hfold]

theorem claim_C4_witness :
    ∃ m', parse_formula (format_formula [("H", 2), ("O", 1)]) = .ok m' ∧
      ∀ k, dict_get? m' k = dict_get? [("H", 2), ("O", 1)] k :=
  claim_C4 "H2O" [("H", 2), ("O", 1)] rfl
